import Mathlib

/-!
# Verification of the `bed` dependency-aware job executor

Shallow embedding of `src/lib.rs` (the `bed` crate): the data model
(`Job`/`Task`/`Step`), the status-tracking structures
(`JobTracker`/`TaskTracker`/`StepTracker` over
`JobStatus`/`TaskStatus`/`StepStatus`), and the scheduling loops of
`Job::run` and `Runner::run`.

Modelling conventions:
* Machine state mutated through the tracker is pure data threaded
  explicitly.  The running code never *reads* the tracker, so each run
  function returns, besides its result, the list of tracker operations
  (`Event`s) it performs, in order; `applyEvent` replays an operation on a
  tracker state using the very `insert`/`modify`/`log` functions of the
  embedding.
* The outcome of an external process (`tokio::process`) is a parameter: a
  `StepEnv` gives, per step index, the spawn/wait/exit outcome and the
  output lines relayed by the two reader tasks.
* `tokio::spawn` / `futures::future::select_all` concurrency is modelled by
  an explicit completion schedule `sched : Nat → Nat`: at the `k`-th wait,
  the unit at index `sched k % running.length` of the in-flight list is the
  one that completes.  Theorems quantify over all schedules.
* A Rust panic (out-of-bounds `args[0]` in `Step::run`) is the `.panicked`
  result; a panicked spawned unit surfaces as a `JoinError`
  (`Error.join`) when the scheduler awaits it, as under tokio.
-/

namespace Bed

/-- Mirrors `enum Status` (lib.rs 371-377). -/
inductive Status where
  | pending
  | running
  | finished
  | failed
deriving DecidableEq, Repr

/-- Mirrors `enum Step` (lib.rs 386-390): the only variant is
`Command { args }`. -/
inductive Step where
  | command (args : List String)
deriving DecidableEq, Repr

/-- Mirrors `struct Task` (lib.rs 520-526). -/
structure Task where
  name : String
  depends : List String
  steps : List Step
deriving DecidableEq, Repr

/-- Mirrors `struct Job` (lib.rs 48-54). -/
structure Job where
  name : String
  depends : List String
  tasks : List Task
deriving DecidableEq, Repr

/-- Mirrors `enum Error` (lib.rs 8-18).  Payloads that the claims never
inspect (`std::io::Error`, `serde_yml::Error`, `JoinError`) are dropped;
`ExitStatus` is its raw value, `success()` meaning zero (`Error::Exit`). -/
inductive Error where
  | circularDependency
  | exit (status : Nat)
  | ioError
  | jobFailed (job : Job)
  | join
  | missingDependency (name : String)
  | serde
  | taskFailed (task : Task)
deriving DecidableEq, Repr

/-- Mirrors `enum StepStatus` (lib.rs 465-472), variant `Command`. -/
structure StepStatus where
  args : List String
  output : List String
  status : Status
deriving DecidableEq, Repr

/-- Mirrors `struct TaskStatus` (lib.rs 543-551). -/
structure TaskStatus where
  name : String
  depends : List String
  steps : List StepStatus
  status : Status
deriving DecidableEq, Repr

/-- Mirrors `struct JobStatus` (lib.rs 191-199). -/
structure JobStatus where
  name : String
  depends : List String
  tasks : List TaskStatus
  status : Status
deriving DecidableEq, Repr

/-- The `JobTracker`'s shared `HashMap<String, JobStatus>` (lib.rs 159-162)
as an association list; keys are unique in a `HashMap`, and all operations
below act on the first matching key. -/
abbrev JobTracker := List (String × JobStatus)

/-- `JobTracker::get` (lib.rs 171-173): clone of the entry, if any. -/
def JobTracker.get (tr : JobTracker) (name : String) : Option JobStatus :=
  (tr.find? (fun p => p.1 == name)).map (fun p => p.2)

/-- `JobTracker::insert` (lib.rs 175-177): `HashMap::insert` keyed by
`job.name`, replacing the (unique) existing entry if any, else adding
one. -/
def JobTracker.insert (tr : JobTracker) (job : JobStatus) : JobTracker :=
  match tr with
  | [] => [(job.name, job)]
  | p :: rest =>
    if p.1 == job.name then (job.name, job) :: rest else p :: JobTracker.insert rest job

/-- `JobTracker::modify` (lib.rs 179-187): apply `f` in place to the
(unique) entry if present, else do nothing. -/
def JobTracker.modify (tr : JobTracker) (name : String) (f : JobStatus → JobStatus) :
    JobTracker :=
  match tr with
  | [] => []
  | p :: rest =>
    if p.1 == name then (p.1, f p.2) :: rest else p :: JobTracker.modify rest name f

/-- `iter_mut().find(..)` update of the first list element matching a
predicate; used by `TaskTracker::modify` (lib.rs 579-583). -/
def modifyFirstTask : List TaskStatus → String → (TaskStatus → TaskStatus) → List TaskStatus
  | [], _, _ => []
  | t :: ts, name, f =>
    if t.name == name then f t :: ts else t :: modifyFirstTask ts name f

/-- `task.steps.get_mut(index)` update, used by `StepTracker::modify`
(lib.rs 511-515): no-op when the index is out of range. -/
def modifyStepAt (steps : List StepStatus) (index : Nat) (f : StepStatus → StepStatus) :
    List StepStatus :=
  match steps.get? index with
  | some s => steps.set index (f s)
  | none => steps

/-- `TaskTracker::get` (lib.rs 568-573): look the job up, then the first
task of that name. -/
def TaskTracker.get (job_name : String) (tr : JobTracker) (name : String) :
    Option TaskStatus :=
  match tr.get job_name with
  | some job => job.tasks.find? (fun task => task.name == name)
  | none => none

/-- `TaskTracker::modify` (lib.rs 575-584). -/
def TaskTracker.modify (job_name : String) (tr : JobTracker) (name : String)
    (f : TaskStatus → TaskStatus) : JobTracker :=
  tr.modify job_name (fun job => { job with tasks := modifyFirstTask job.tasks name f })

/-- `StepTracker::get` (lib.rs 489-494). -/
def StepTracker.get (job_name task_name : String) (tr : JobTracker) (index : Nat) :
    Option StepStatus :=
  match TaskTracker.get job_name tr task_name with
  | some task => task.steps.get? index
  | none => none

/-- `StepTracker::modify` (lib.rs 507-516). -/
def StepTracker.modify (job_name task_name : String) (tr : JobTracker) (index : Nat)
    (f : StepStatus → StepStatus) : JobTracker :=
  TaskTracker.modify job_name tr task_name
    (fun task => { task with steps := modifyStepAt task.steps index f })

/-- `StepTracker::log` (lib.rs 496-505): the `print!` goes to the console;
the tracker effect is pushing the message onto the step's output. -/
def StepTracker.log (job_name task_name : String) (tr : JobTracker) (index : Nat)
    (message : String) : JobTracker :=
  StepTracker.modify job_name task_name tr index
    (fun step => { step with output := step.output ++ [message] })

/-- One tracker operation performed during a run.  Each constructor is one
of the closure shapes that actually occur in `lib.rs`:
`insert` (lib.rs 278-294), `job.status = ..` (317-332),
`task.status = ..` (104-119), `step.status = ..` (400-455) and
`StepTracker::log` (421, 432). -/
inductive Event where
  | insertJob (job : JobStatus)
  | setJob (job : String) (s : Status)
  | setTask (job task : String) (s : Status)
  | setStep (job task : String) (index : Nat) (s : Status)
  | logLine (job task : String) (index : Nat) (line : String)
deriving DecidableEq, Repr

/-- Replay one tracker operation on a tracker state. -/
def applyEvent (tr : JobTracker) : Event → JobTracker
  | .insertJob job => tr.insert job
  | .setJob job s => tr.modify job (fun j => { j with status := s })
  | .setTask job task s =>
      TaskTracker.modify job tr task (fun t => { t with status := s })
  | .setStep job task index s =>
      StepTracker.modify job task tr index (fun st => { st with status := s })
  | .logLine job task index line => StepTracker.log job task tr index line

/-- Replay a list of tracker operations, oldest first. -/
def applyEvents (tr : JobTracker) (evs : List Event) : JobTracker :=
  evs.foldl applyEvent tr

/-- Outcome of the external process behind one `Command` step:
`tokio::process::Command::spawn` failed, `child.wait()` failed, or the
process exited with the given raw status (`success()` iff zero). -/
inductive ProcOutcome where
  | spawnError
  | waitError
  | exit (status : Nat)
deriving DecidableEq, Repr

/-- Environment for one task's steps: per step index, the process outcome
and the output lines the two reader tasks relay to `log`. -/
structure StepEnv where
  out : Nat → ProcOutcome
  lines : Nat → List String

/-- Result of running a step or a task: success, an error, or a Rust
panic. -/
inductive RunResult where
  | ok
  | err (e : Error)
  | panicked
deriving DecidableEq, Repr

/-- The accesses `&args[0]` and `&args[1..]` of `Step::run`
(lib.rs 408-409): `none` models the panic on an empty `args`. -/
def Step.spawnArgs (args : List String) : Option (String × List String) :=
  match args.get? 0 with
  | none => none
  | some exe => some (exe, args.drop 1)

/-- `Step::run` (lib.rs 397-461) for a step at `index` of task
`task_name` inside job `job_name`: mark the step Running; extract the
command line (panicking on empty `args`); spawn; relay output lines;
await the exit status; mark Finished and succeed on a zero status, else
mark Failed and return `Error::Exit`.  Spawn/wait failures are the `?`
paths returning `Error::Io`. -/
def Step.run (job_name task_name : String) (index : Nat) (env : StepEnv) :
    Step → RunResult × List Event
  | .command args =>
    let markRun := Event.setStep job_name task_name index .running
    match Step.spawnArgs args with
    | none => (.panicked, [markRun])
    | some _ =>
      match env.out index with
      | .spawnError => (.err .ioError, [markRun])
      | .waitError =>
          (.err .ioError,
            markRun :: (env.lines index).map (Event.logLine job_name task_name index))
      | .exit status =>
          let logs := (env.lines index).map (Event.logLine job_name task_name index)
          if status == 0 then
            (.ok, markRun :: logs ++ [Event.setStep job_name task_name index .finished])
          else
            (.err (.exit status),
              markRun :: logs ++ [Event.setStep job_name task_name index .failed])

/-- The `for (index, step) in steps.iter_mut().enumerate()` loop of
`Task::run` (lib.rs 534-536), starting at `index`: run each step in
order; the `?` makes the first error (or a panic) abort the rest. -/
def Task.runSteps (job_name task_name : String) (env : StepEnv) :
    Nat → List Step → RunResult × List Event
  | _, [] => (.ok, [])
  | index, s :: rest =>
    match Step.run job_name task_name index env s with
    | (.ok, evs) =>
        let (r, evs') := Task.runSteps job_name task_name env (index + 1) rest
        (r, evs ++ evs')
    | (.err e, evs) => (.err e, evs)
    | (.panicked, evs) => (.panicked, evs)

/-- `Task::run` (lib.rs 533-539): run the steps in declared order from
index 0; succeed when all do. -/
def Task.run (job_name : String) (env : StepEnv) (t : Task) : RunResult × List Event :=
  Task.runSteps job_name t.name env 0 t.steps

/-- `Task::ready` (lib.rs 529-531). -/
def Task.ready (t : Task) (finished : List Task) : Bool :=
  t.depends.all (fun name => finished.any (fun task => task.name == name))

/-- `Job::ready` (lib.rs 69-71). -/
def Job.ready (j : Job) (finished : List Job) : Bool :=
  j.depends.all (fun name => finished.any (fun job => job.name == name))

/-- A spawned unit of work (`tokio::spawn`, lib.rs 101-116 / 314-329):
its eventual result and the tracker operations its body performs.
`node` records which node the unit was spawned for; it is specification
ghost data — the scheduler never inspects it. -/
structure DagUnit (N : Type) where
  node : N
  res : Except Error N
  panicked : Bool := false
  events : List Event

/-- The node interface the two scheduler loops share: `Job::run` iterates
tasks (using `Task::ready`), `Runner::run` iterates jobs (using
`Job::ready`); `spawnUnit` is the spawned closure, and `runningMark` the
`status = Running` modification done right after spawning. -/
structure DagOps (N : Type) where
  name : N → String
  depends : N → List String
  spawnUnit : N → DagUnit N
  runningMark : N → Event

/-- Readiness (lib.rs 69-71 / 529-531): every declared dependency is the
name of a node already in the finished list. -/
def DagOps.isReady (ops : DagOps N) (n : N) (finished : List N) : Bool :=
  (ops.depends n).all (fun d => finished.any (fun m => ops.name m == d))

/-- The shared scheduling loop of `Job::run` (lib.rs 88-154) and
`Runner::run` (lib.rs 301-366).  One iteration: `pending.retain(..)`
spawns every ready node (in declaration order), marking each Running;
then, if anything is in flight, `select_all` awaits the unit chosen by
the completion schedule (`sched k % running.length`) — success moves the
returned node to the finished list, an error aborts the whole loop with
that error, a panicked unit aborts with `Error::Join`; if nothing is in
flight and nothing is pending the loop succeeds with the finished list;
if nothing is in flight but something is pending it aborts with
`Error::CircularDependency`.  The result is paired with the tracker
operations performed, in order (a unit body's operations are placed at
the point its completion is observed).

The Rust loop carries no fuel; here `fuel` is a structural bound on the
number of iterations, which strictly decreases the measure
`pending.length + running.length` at every recursive call, so any
`fuel > pending.length + running.length` — as the callers `Job::run` and
`Runner::run` pass — makes the `0` case unreachable and the result
independent of `fuel` (`dagLoop_fuel_irrelevant`). -/
def dagLoop (ops : DagOps N) (sched : Nat → Nat) :
    Nat → Nat → List N → List (DagUnit N) → List N → Except Error (List N) × List Event
  | 0, _, _, _, _ => (.error .join, [])
  | fuel + 1, k, pending, running, finished =>
    let launched := pending.filter (fun n => ops.isReady n finished)
    let pending' := pending.filter (fun n => !ops.isReady n finished)
    let marks := launched.map ops.runningMark
    let running' := running ++ launched.map ops.spawnUnit
    if h : running'.length ≠ 0 then
      let u := running'.get ⟨sched k % running'.length, Nat.mod_lt _ (Nat.pos_of_ne_zero h)⟩
      let rest := running'.eraseIdx (sched k % running'.length)
      if u.panicked then
        (.error .join, marks ++ u.events)
      else
        match u.res with
        | .ok n' =>
            let r := dagLoop ops sched fuel (k + 1) pending' rest (finished ++ [n'])
            (r.1, marks ++ u.events ++ r.2)
        | .error e => (.error e, marks ++ u.events)
    else if pending'.isEmpty then
      (.ok finished, marks)
    else
      (.error .circularDependency, marks)

/-- The validation loop at the top of `Job::run` (lib.rs 74-82): the first
`task.depends` entry, in iteration order, that names no task of the job. -/
def firstMissingTaskDep (tasks : List Task) : Option String :=
  tasks.findSome? (fun task =>
    task.depends.find? (fun name => !tasks.any (fun t => t.name == name)))

/-- The spawned closure of `Job::run` (lib.rs 101-116): run the (cloned)
task; on success mark it Finished and yield the task, on error mark it
Failed and yield the error.  A panic inside `Task::run` escapes the
closure before either mark. -/
def taskUnit (job_name : String) (env : String → StepEnv) (t : Task) : DagUnit Task :=
  match Task.run job_name (env t.name) t with
  | (.ok, evs) =>
      { node := t, res := .ok t,
        events := evs ++ [Event.setTask job_name t.name .finished] }
  | (.err e, evs) =>
      { node := t, res := .error e,
        events := evs ++ [Event.setTask job_name t.name .failed] }
  | (.panicked, evs) => { node := t, res := .error .join, panicked := true, events := evs }

/-- The `DagOps` instantiation used by `Job::run`: nodes are the job's
tasks. -/
def taskOps (job_name : String) (env : String → StepEnv) : DagOps Task where
  name := Task.name
  depends := Task.depends
  spawnUnit := taskUnit job_name env
  runningMark := fun t => Event.setTask job_name t.name .running

/-- `Job::run` (lib.rs 73-155): validate that every task dependency names
a task of this job (else `MissingDependency("<job>/<dep>")`), then run the
scheduling loop on `self.tasks`; on success `self.tasks` is replaced by
the finished list.  `env` gives each task's step outcomes (keyed by task
name) and `sched` the completion schedule. -/
def Job.run (env : String → StepEnv) (sched : Nat → Nat) (j : Job) :
    Except Error Unit × Job × List Event :=
  match firstMissingTaskDep j.tasks with
  | some name =>
      (.error (.missingDependency (j.name ++ "/" ++ name)), j, [])
  | none =>
      match dagLoop (taskOps j.name env) sched (j.tasks.length + 1) 0 j.tasks [] [] with
      | (.ok finished, evs) => (.ok (), { j with tasks := finished }, evs)
      | (.error e, evs) => (.error e, j, evs)

/-- The `JobStatus` mirror record inserted by `Runner::run`
(lib.rs 278-294). -/
def jobStatusInit (job : Job) : JobStatus where
  name := job.name
  depends := job.depends
  tasks := job.tasks.map (fun task =>
    { name := task.name
      depends := task.depends
      steps := task.steps.map (fun step =>
        match step with
        | .command args => { args := args, output := [], status := .pending })
      status := .pending })
  status := .pending

/-- The first `for job in &self.jobs` loop of `Runner::run`
(lib.rs 269-295): validate each job's dependencies against the whole
collection and insert its mirror record; on the first dependency that
names no job, stop with that name (the mirrors inserted so far remain). -/
def runnerValidateInsert (all : List Job) : List Job → Option String × List Event
  | [] => (none, [])
  | job :: rest =>
    match job.depends.find? (fun name => !all.any (fun j => j.name == name)) with
    | some name => (some name, [])
    | none =>
        let r := runnerValidateInsert all rest
        (r.1, Event.insertJob (jobStatusInit job) :: r.2)

/-- The spawned closure of `Runner::run` (lib.rs 314-329): run the
(cloned) job; on success mark it Finished and yield the (task-replaced)
job, on error mark it Failed and yield the error. -/
def jobUnit (env : String → String → StepEnv) (jsched : String → Nat → Nat) (j : Job) :
    DagUnit Job :=
  match Job.run (env j.name) (jsched j.name) j with
  | (.ok _, j', evs) =>
      { node := j, res := .ok j',
        events := evs ++ [Event.setJob j.name .finished] }
  | (.error e, _, evs) =>
      { node := j, res := .error e,
        events := evs ++ [Event.setJob j.name .failed] }

/-- The `DagOps` instantiation used by `Runner::run`: nodes are jobs. -/
def jobOps (env : String → String → StepEnv) (jsched : String → Nat → Nat) : DagOps Job where
  name := Job.name
  depends := Job.depends
  spawnUnit := jobUnit env jsched
  runningMark := fun j => Event.setJob j.name .running

/-- Mirrors `struct Runner` (lib.rs 257-259). -/
structure Runner where
  jobs : List Job
deriving DecidableEq, Repr

/-- `Runner::run` (lib.rs 268-367): validate and insert mirror records for
all jobs (failing with `MissingDependency(<name>)` on the first dependency
naming no job of the collection), then run the scheduling loop on
`self.jobs`; on success `self.jobs` is replaced by the finished list.
`env` gives step outcomes keyed by job and task name, `jsched` the
completion schedule of each job's inner loop, and `sched` the runner's
own completion schedule. -/
def Runner.run (env : String → String → StepEnv) (jsched : String → Nat → Nat)
    (sched : Nat → Nat) (r : Runner) : Except Error Unit × Runner × List Event :=
  match runnerValidateInsert r.jobs r.jobs with
  | (some name, evs) => (.error (.missingDependency name), r, evs)
  | (none, evs) =>
      match dagLoop (jobOps env jsched) sched (r.jobs.length + 1) 0 r.jobs [] [] with
      | (.ok finished, evs') => (.ok (), { jobs := finished }, evs ++ evs')
      | (.error e, evs') => (.error e, r, evs ++ evs')

/-- The finished collection is a valid topological closure relative to the
already-seen names: every node's dependencies are all named among `seen`
plus the nodes before it. -/
def topoFrom (name : N → String) (depends : N → List String) :
    List String → List N → Bool
  | _, [] => true
  | seen, n :: rest =>
      (depends n).all (fun d => seen.contains d)
        && topoFrom name depends (seen ++ [name n]) rest

instance {ε α : Type} [DecidableEq ε] [DecidableEq α] : DecidableEq (Except ε α) := by
  intro a b
  cases a <;> cases b
  case error.error x y =>
    exact if h : x = y then isTrue (by rw [h]) else isFalse (fun hc => h (Except.error.inj hc))
  case ok.ok x y =>
    exact if h : x = y then isTrue (by rw [h]) else isFalse (fun hc => h (Except.ok.inj hc))
  case error.ok x y => exact isFalse (fun hc => Except.noConfusion hc)
  case ok.error x y => exact isFalse (fun hc => Except.noConfusion hc)

/-- A step environment in which every process exits 0 producing no
output. -/
def envAllOk : StepEnv := { out := fun _ => .exit 0, lines := fun _ => [] }

/-- A step environment in which every process exits 1. -/
def envAllFail : StepEnv := { out := fun _ => .exit 1, lines := fun _ => [] }

/-- Fixture: task `a`, no dependencies, one command step. -/
def taskA : Task := { name := "a", depends := [], steps := [.command ["true"]] }

/-- Fixture: task `b` depending on `a`. -/
def taskB : Task := { name := "b", depends := ["a"], steps := [.command ["true"]] }

/-- Fixture: a job with tasks `a` and `b` where `b` depends on `a`. -/
def jobAB : Job := { name := "j", depends := [], tasks := [taskA, taskB] }

/-- Fixture environment: task `a`'s step exits 1, everything else
succeeds. -/
def envFailA : String → StepEnv := fun n => if n == "a" then envAllFail else envAllOk

/-- Fixture: a runner with one job whose single task's step exits 1. -/
def runnerFail : Runner :=
  { jobs := [{ name := "J", depends := [],
               tasks := [{ name := "a", depends := [], steps := [.command ["false"]] }] }] }

/-- A task record used to exercise the tracker contract on concrete
inputs. -/
def sampleTaskRecord : TaskStatus :=
  { name := "a", depends := [], status := Status.pending,
    steps := [{ args := ["true"], output := [], status := Status.pending }] }

/-- The job record held by `sampleTracker`. -/
def sampleJobRecord : JobStatus :=
  { name := "j", depends := [], status := Status.running, tasks := [sampleTaskRecord] }

/-- The tracker state holding `sampleJobRecord` under its name. -/
def sampleTracker : JobTracker := [("j", sampleJobRecord)]

/-- The per-step traces of a step list in declared order: what the step
loop of `Task::run` emits when no step aborts it early. -/
def stepsTraceFrom (job_name task_name : String) (env : StepEnv) :
    Nat → List Step → List Event
  | _, [] => []
  | i, s :: rest =>
    (Step.run job_name task_name i env s).2 ++ stepsTraceFrom job_name task_name env (i + 1) rest

/-- Fixture: a task of three steps for exercising the sequential-run
contract; under `envFailSnd` its first step exits 0 and the rest exit 1,
so the run stops at step 1 and step 2 is never touched. -/
def taskThreeSteps : Task :=
  { name := "t", depends := [],
    steps := [.command ["s0"], .command ["s1"], .command ["s2"]] }

/-- A step environment in which step 0 exits 0 and every later step
exits 1. -/
def envFailSnd : StepEnv :=
  { out := fun i => if i == 0 then .exit 0 else .exit 1, lines := fun _ => [] }

/-- A step environment whose single process emits one output line and
exits 2, for exercising the exit path on a concrete input. -/
def envExitTwo : StepEnv := { out := fun _ => .exit 2, lines := fun _ => ["boom"] }

/-- The orderings in which a single racing tracker operation can land
relative to a sequence of operations: `tokio::spawn`ed work runs
concurrently with the statement that follows the spawn, so the mark can
interleave at any position. -/
def markInterleavings (mark : Event) : List Event → List (List Event)
  | [] => [[mark]]
  | e :: rest => (mark :: e :: rest) :: (markInterleavings mark rest).map (fun l => e :: l)

/-- The task status read back through the tracker after each prefix of an
operation sequence, oldest first. -/
def observedTaskStatuses (jn tn : String) (tr : JobTracker) (evs : List Event) :
    List (Option Status) :=
  (List.range (evs.length + 1)).map (fun k =>
    (TaskTracker.get jn (applyEvents tr (evs.take k)) tn).map (fun t => t.status))

/-- The progress order Pending → Running → Finished/Failed. -/
def statusRank : Status → Nat
  | .pending => 0
  | .running => 1
  | .finished => 2
  | .failed => 2

/-- Whether an observed status sequence ever moves backwards in the
progress order. -/
def regresses (l : List (Option Status)) : Bool :=
  (l.zip l.tail).any (fun p =>
    match p with
    | (some a, some b) => statusRank b < statusRank a
    | _ => false)

/-- Fixture: a task with no steps, whose spawned unit completes
immediately. -/
def zeroTask : Task := { name := "z", depends := [], steps := [] }

/-- A tracker state holding `zeroTask`'s Pending record inside job
`j`. -/
def trackerZ : JobTracker :=
  [("j", { name := "j", depends := [], status := Status.running,
           tasks := [{ name := "z", depends := [], steps := [], status := Status.pending }] })]

/-- Fixture: a runner of two jobs where `B` depends on `A`. -/
def runnerAB : Runner :=
  { jobs := [{ name := "A", depends := [],
               tasks := [{ name := "a", depends := [], steps := [.command ["x"]] }] },
             { name := "B", depends := ["A"],
               tasks := [{ name := "b", depends := [], steps := [.command ["x"]] }] }] }

/-- Fixture: a job whose two tasks depend on each other. -/
def jobCyc : Job :=
  { name := "c", depends := [],
    tasks := [{ name := "a", depends := ["b"], steps := [.command ["x"]] },
              { name := "b", depends := ["a"], steps := [.command ["x"]] }] }

/-- Fixture: a job with a task depending on a name no task has. -/
def jobMissing : Job :=
  { name := "m", depends := [],
    tasks := [{ name := "a", depends := ["ghost"], steps := [] }] }

/-- Fixture: a runner with a job depending on a name no job has. -/
def runnerMissing : Runner :=
  { jobs := [{ name := "A", depends := ["ghost"], tasks := [] }] }

/-- Unfolding `DagOps.isReady` to a membership statement. -/
theorem isReady_iff (ops : DagOps N) (n : N) (finished : List N) :
    ops.isReady n finished = true ↔ ∀ d ∈ ops.depends n, ∃ m ∈ finished, ops.name m = d := by
  unfold DagOps.isReady
  rw [List.all_eq_true]
  constructor
  · intro h d hd
    obtain ⟨m, hm, he⟩ := List.any_eq_true.mp (h d hd)
    exact ⟨m, hm, by simpa using he⟩
  · intro h d hd
    obtain ⟨m, hm, he⟩ := h d hd
    exact List.any_eq_true.mpr ⟨m, hm, by simp [he]⟩

/-- A list element lands in the filter of a predicate or of its negation. -/
theorem mem_filter_split (l : List α) (p : α → Bool) (a : α) (h : a ∈ l) :
    a ∈ l.filter p ∨ a ∈ l.filter (fun x => !p x) := by
  by_cases hp : p a
  · exact Or.inl (List.mem_filter.mpr ⟨h, hp⟩)
  · exact Or.inr (List.mem_filter.mpr ⟨h, by simp [hp]⟩)

/-- Removing the element at an index is a permutation with that element
put back in front. -/
theorem perm_get_cons_eraseIdx (l : List α) (i : Nat) (h : i < l.length) :
    List.Perm l (l.get ⟨i, h⟩ :: l.eraseIdx i) := by
  induction l generalizing i with
  | nil => simp at h
  | cons a t ih =>
    cases i with
    | zero => simp [List.eraseIdx]
    | succ n =>
      simp only [List.eraseIdx, List.get]
      have h' : n < t.length := by simpa using h
      exact ((ih n h').cons a).trans (List.Perm.swap _ _ _)

/-- The loop when nothing is in flight and nothing is ready: success on an
empty pending set, the circular-dependency error otherwise (lib.rs
148-153 / 360-365). -/
theorem dagLoop_no_inflight (ops : DagOps N) (sched : Nat → Nat) (fuel k : Nat)
    (pending : List N) (finished : List N)
    (h : pending.filter (fun n => ops.isReady n finished) = []) :
    dagLoop ops sched (fuel + 1) k pending [] finished =
      if pending.isEmpty then (.ok finished, [])
      else (.error .circularDependency, []) := by
  have hall : ∀ n ∈ pending, ¬ ops.isReady n finished := by
    intro n hn
    exact (List.filter_eq_nil_iff.mp h) n hn
  have hfn : pending.filter (fun n => !ops.isReady n finished) = pending :=
    List.filter_eq_self.mpr (fun n hn => by simp [hall n hn])
  simp only [dagLoop, h, hfn, List.map_nil, List.nil_append, List.length_nil, ne_eq,
    not_true_eq_false, dite_false, List.append_nil]

/-- The loop when something is in flight after the launch pass: the
scheduled unit is retired (lib.rs 130-147 / 342-359). -/
theorem dagLoop_inflight (ops : DagOps N) (sched : Nat → Nat) (fuel k : Nat)
    (pending : List N) (running : List (DagUnit N)) (finished : List N)
    (running' : List (DagUnit N))
    (hr : running' = running
      ++ (pending.filter (fun n => ops.isReady n finished)).map ops.spawnUnit)
    (u : DagUnit N)
    (hu : running'.get? (sched k % running'.length) = some u) :
    dagLoop ops sched (fuel + 1) k pending running finished =
      (let marks := (pending.filter (fun n => ops.isReady n finished)).map ops.runningMark
       let pending' := pending.filter (fun n => !ops.isReady n finished)
       let rest := running'.eraseIdx (sched k % running'.length)
       if u.panicked then (.error .join, marks ++ u.events)
       else
         match u.res with
         | .ok n' =>
             let r := dagLoop ops sched fuel (k + 1) pending' rest (finished ++ [n'])
             (r.1, marks ++ u.events ++ r.2)
         | .error e => (.error e, marks ++ u.events)) := by
  have hne : running'.length ≠ 0 := by
    intro h0
    rw [List.length_eq_zero.mp h0] at hu
    simp at hu
  have hlt : sched k % running'.length < running'.length :=
    Nat.mod_lt _ (Nat.pos_of_ne_zero hne)
  have hgu : running'.get ⟨sched k % running'.length, hlt⟩ = u := by
    rw [List.get?_eq_get hlt] at hu
    exact Option.some.inj hu
  subst hr
  simp only [dagLoop]
  rw [dif_pos hne]
  simp only [hgu]

/-- A nonempty list has an element minimizing any `Nat`-valued image. -/
theorem exists_image_min (f : α → Nat) (l : List α) (h : l ≠ []) :
    ∃ a ∈ l, ∀ b ∈ l, f a ≤ f b := by
  induction l with
  | nil => exact absurd rfl h
  | cons x t ih =>
    cases t with
    | nil => exact ⟨x, by simp, by simp⟩
    | cons y s =>
      obtain ⟨a, ha, hmin⟩ := ih (by simp)
      by_cases hxa : f x ≤ f a
      · refine ⟨x, by simp, ?_⟩
        intro b hb
        rcases List.mem_cons.mp hb with rfl | hb
        · exact le_refl _
        · exact le_trans hxa (hmin b hb)
      · refine ⟨a, List.mem_cons_of_mem _ ha, ?_⟩
        intro b hb
        rcases List.mem_cons.mp hb with rfl | hb
        · exact le_of_lt (lt_of_not_le hxa)
        · exact hmin b hb

/-- Ghost-data round trip: spawning and reading back the node is the
identity (holds for both instantiations of `DagOps`). -/
theorem map_node_map_spawnUnit (ops : DagOps N) (Hnode : ∀ n, (ops.spawnUnit n).node = n)
    (l : List N) : (l.map ops.spawnUnit).map (fun u => u.node) = l := by
  rw [List.map_map]
  exact List.map_id'' (fun n => Hnode n) l

/-- Main correctness of the scheduling loop on success: if every unit of
work in flight or yet to be spawned succeeds (with its node's name and
dependency list intact), every dependency of a pending node resolves
within the state, every in-flight node's dependencies are already
finished, and a rank function witnesses acyclicity of the pending
dependencies, then the loop succeeds, returning exactly the given
finished list extended by the remaining nodes, in an order that is a
topological closure. -/
theorem dagLoop_all_ok (ops : DagOps N) (sched : Nat → Nat) (rank : String → Nat)
    (Hnode : ∀ n, (ops.spawnUnit n).node = n) :
    ∀ (M k : Nat) (pending : List N) (running : List (DagUnit N)) (finished : List N),
      pending.length + running.length < M →
      (∀ n ∈ pending, ∃ n', (ops.spawnUnit n).res = .ok n'
          ∧ (ops.spawnUnit n).panicked = false
          ∧ ops.name n' = ops.name n ∧ ops.depends n' = ops.depends n) →
      (∀ u ∈ running, ∃ n', u.res = .ok n' ∧ u.panicked = false
          ∧ ops.name n' = ops.name u.node ∧ ops.depends n' = ops.depends u.node
          ∧ ∀ d ∈ ops.depends u.node, ∃ m ∈ finished, ops.name m = d) →
      (∀ n ∈ pending, ∀ d ∈ ops.depends n,
          d ∈ pending.map ops.name ∨ d ∈ running.map (fun u => ops.name u.node)
            ∨ d ∈ finished.map ops.name) →
      (∀ n ∈ pending, ∀ d ∈ ops.depends n, rank d < rank (ops.name n)) →
      ∃ g evs,
        dagLoop ops sched M k pending running finished = (.ok (finished ++ g), evs)
          ∧ List.Perm (g.map ops.name)
              (pending.map ops.name ++ running.map (fun u => ops.name u.node))
          ∧ topoFrom ops.name ops.depends (finished.map ops.name) g = true := by
  intro M
  induction M with
  | zero =>
    intro k pending running finished hM H1 H2 H3 H4
    exact absurd hM (by omega)
  | succ M ih =>
    intro k pending running finished hM H1 H2 H3 H4
    by_cases hstuck :
        running ++ (pending.filter (fun n => ops.isReady n finished)).map ops.spawnUnit = []
    · -- nothing in flight even after the launch pass
      obtain ⟨hrun, hunits⟩ := List.append_eq_nil.mp hstuck
      have hlaunch : pending.filter (fun n => ops.isReady n finished) = [] :=
        List.map_eq_nil_iff.mp hunits
      have hnotready : ∀ n ∈ pending, ¬ ops.isReady n finished :=
        fun n hn => List.filter_eq_nil_iff.mp hlaunch n hn
      by_cases hpe : pending = []
      · subst hpe hrun
        refine ⟨[], [], ?_, by simp, by simp [topoFrom]⟩
        rw [dagLoop_no_inflight ops sched M k [] finished (by simp)]
        simp
      · -- a pending node of minimal rank would have to be ready
        exfalso
        obtain ⟨n, hnp, hmin⟩ := exists_image_min (fun n => rank (ops.name n)) pending hpe
        have hnr := hnotready n hnp
        rw [isReady_iff] at hnr
        push_neg at hnr
        obtain ⟨d, hd, hdfin⟩ := hnr
        rcases H3 n hnp d hd with hcase | hcase | hcase
        · obtain ⟨m, hm, hmd⟩ := List.mem_map.mp hcase
          have h1 := H4 n hnp d hd
          have h2 := hmin m hm
          rw [hmd] at h2
          omega
        · rw [hrun] at hcase
          simp at hcase
        · obtain ⟨m, hm, hmd⟩ := List.mem_map.mp hcase
          exact hdfin m hm hmd
    · -- something is in flight: retire the scheduled unit
      have hne : (running
          ++ (pending.filter (fun n => ops.isReady n finished)).map ops.spawnUnit).length ≠ 0 :=
        fun h0 => hstuck (List.length_eq_zero.mp h0)
      set launched := pending.filter (fun n => ops.isReady n finished) with hlaunched
      set pending' := pending.filter (fun n => !ops.isReady n finished) with hpending'
      set running' := running ++ launched.map ops.spawnUnit with hrunning'
      have hlt : sched k % running'.length < running'.length :=
        Nat.mod_lt _ (Nat.pos_of_ne_zero hne)
      set u := running'.get ⟨sched k % running'.length, hlt⟩ with hu
      have humem : u ∈ running' := by
        rw [hu]
        exact List.get_mem _ _ _
      have hperm0 : List.Perm running' (u :: running'.eraseIdx (sched k % running'.length)) := by
        rw [hu]
        exact perm_get_cons_eraseIdx running' _ hlt
      -- every unit of the in-flight list succeeds and keeps name/deps,
      -- and its node's dependencies are finished
      have hunit : ∀ w ∈ running', ∃ m, w.res = .ok m ∧ w.panicked = false
          ∧ ops.name m = ops.name w.node ∧ ops.depends m = ops.depends w.node
          ∧ ∀ d ∈ ops.depends w.node, ∃ x ∈ finished, ops.name x = d := by
        intro w hw
        rw [hrunning'] at hw
        rcases List.mem_append.mp hw with hw | hw
        · exact H2 w hw
        · obtain ⟨n, hn, hwn⟩ := List.mem_map.mp hw
          rw [hlaunched] at hn
          have hnp : n ∈ pending := (List.mem_filter.mp hn).1
          have hready : ops.isReady n finished := (List.mem_filter.mp hn).2
          obtain ⟨m, hres, hpan, hname, hdeps⟩ := H1 n hnp
          subst hwn
          rw [Hnode n]
          exact ⟨m, hres, hpan, hname, hdeps, (isReady_iff ops n finished).mp hready⟩
      obtain ⟨n', hres, hpan, hname', hdeps', hfin'⟩ := hunit u humem
      -- unfold one loop iteration
      have hstep := dagLoop_inflight ops sched M k pending running finished running'
        hrunning' u (by rw [List.get?_eq_get hlt])
      rw [hpan, hres] at hstep
      simp only [Bool.false_eq_true, if_false] at hstep
      rw [← hlaunched, ← hpending'] at hstep
      -- the recursive state satisfies the invariants
      set rest := running'.eraseIdx (sched k % running'.length) with hrest
      have hrestsub : ∀ w ∈ rest, w ∈ running' := by
        intro w hw
        rw [hrest] at hw
        exact List.mem_of_mem_eraseIdx hw
      have hMrec : pending'.length + rest.length < M := by
        have h1 : rest.length = running'.length - 1 := by
          rw [hrest, List.length_eraseIdx]
          simp [hlt]
        have h2 : launched.length + pending'.length = pending.length := by
          rw [hlaunched, hpending']
          have h := List.length_eq_length_filter_add (l := pending)
            (fun n => ops.isReady n finished)
          omega
        have h3 : running'.length = running.length + launched.length := by
          rw [hrunning']
          simp
        have h4 : 0 < running'.length := Nat.pos_of_ne_zero hne
        omega
      have H1rec : ∀ n ∈ pending', ∃ m, (ops.spawnUnit n).res = .ok m
          ∧ (ops.spawnUnit n).panicked = false
          ∧ ops.name m = ops.name n ∧ ops.depends m = ops.depends n := by
        intro n hn
        rw [hpending'] at hn
        exact H1 n (List.mem_filter.mp hn).1
      have H2rec : ∀ w ∈ rest, ∃ m, w.res = .ok m ∧ w.panicked = false
          ∧ ops.name m = ops.name w.node ∧ ops.depends m = ops.depends w.node
          ∧ ∀ d ∈ ops.depends w.node, ∃ x ∈ finished ++ [n'], ops.name x = d := by
        intro w hw
        obtain ⟨m, h1, h2, h3, h4, h5⟩ := hunit w (hrestsub w hw)
        refine ⟨m, h1, h2, h3, h4, fun d hd => ?_⟩
        obtain ⟨x, hx, hxd⟩ := h5 d hd
        exact ⟨x, List.mem_append_left _ hx, hxd⟩
      have H3rec : ∀ n ∈ pending', ∀ d ∈ ops.depends n,
          d ∈ pending'.map ops.name ∨ d ∈ rest.map (fun w => ops.name w.node)
            ∨ d ∈ (finished ++ [n']).map ops.name := by
        intro n hn d hd
        have hnp : n ∈ pending := by
          rw [hpending'] at hn
          exact (List.mem_filter.mp hn).1
        -- an in-flight node named d yields the second or third case
        have hofrunning : ∀ w ∈ running', ops.name w.node = d →
            d ∈ rest.map (fun w => ops.name w.node) ∨ d ∈ (finished ++ [n']).map ops.name := by
          intro w hw hwd
          rcases List.mem_cons.mp ((hperm0.mem_iff).mp hw) with hcase | hcase
          · subst hcase
            right
            refine List.mem_map.mpr ⟨n', List.mem_append_right _ (by simp), ?_⟩
            rw [hname', hwd]
          · left
            exact List.mem_map.mpr ⟨w, hcase, hwd⟩
        rcases H3 n hnp d hd with hcase | hcase | hcase
        · obtain ⟨m, hm, hmd⟩ := List.mem_map.mp hcase
          rcases mem_filter_split pending (fun n => ops.isReady n finished) m hm with hmr | hmr
          · have hmem : ops.spawnUnit m ∈ running' := by
              rw [hrunning']
              refine List.mem_append_right _ (List.mem_map_of_mem _ ?_)
              rw [hlaunched]
              exact hmr
            rcases hofrunning (ops.spawnUnit m) hmem (by rw [Hnode]; exact hmd) with h | h
            · exact Or.inr (Or.inl h)
            · exact Or.inr (Or.inr h)
          · refine Or.inl (List.mem_map.mpr ⟨m, ?_, hmd⟩)
            rw [hpending']
            exact hmr
        · obtain ⟨w, hw, hwd⟩ := List.mem_map.mp hcase
          have hmem : w ∈ running' := by
            rw [hrunning']
            exact List.mem_append_left _ hw
          rcases hofrunning w hmem hwd with h | h
          · exact Or.inr (Or.inl h)
          · exact Or.inr (Or.inr h)
        · refine Or.inr (Or.inr ?_)
          obtain ⟨m, hm, hmd⟩ := List.mem_map.mp hcase
          exact List.mem_map.mpr ⟨m, List.mem_append_left _ hm, hmd⟩
      have H4rec : ∀ n ∈ pending', ∀ d ∈ ops.depends n, rank d < rank (ops.name n) := by
        intro n hn
        rw [hpending'] at hn
        exact H4 n (List.mem_filter.mp hn).1
      obtain ⟨g', evs', heq, hperm, htopo⟩ :=
        ih (k + 1) pending' rest (finished ++ [n']) hMrec H1rec H2rec H3rec H4rec
      refine ⟨n' :: g', launched.map ops.runningMark ++ u.events ++ evs', ?_, ?_, ?_⟩
      · rw [hstep, heq]
        simp
      · -- permutation bookkeeping
        have e1 : List.Perm (launched.map ops.name ++ pending'.map ops.name)
            (pending.map ops.name) := by
          rw [hlaunched, hpending', ← List.map_append]
          exact (List.filter_append_perm _ pending).map ops.name
        have e2 : running'.map (fun w => ops.name w.node)
            = running.map (fun w => ops.name w.node) ++ launched.map ops.name := by
          rw [hrunning', List.map_append, List.map_map]
          congr 1
          exact List.map_congr_left (fun n _ => by simp [Hnode n])
        have e3 : List.Perm (running'.map (fun w => ops.name w.node))
            (ops.name u.node :: rest.map (fun w => ops.name w.node)) := by
          rw [hrest]
          exact hperm0.map _
        have p1 : List.Perm ((n' :: g').map ops.name)
            (ops.name u.node
              :: (pending'.map ops.name ++ rest.map (fun w => ops.name w.node))) := by
          rw [List.map_cons, hname']
          exact hperm.cons _
        have p2 : List.Perm (ops.name u.node
              :: (pending'.map ops.name ++ rest.map (fun w => ops.name w.node)))
            (pending'.map ops.name ++ running'.map (fun w => ops.name w.node)) := by
          refine List.Perm.trans List.perm_middle.symm ?_
          exact List.Perm.append_left _ e3.symm
        have p3 : List.Perm (pending'.map ops.name ++ running'.map (fun w => ops.name w.node))
            (pending.map ops.name ++ running.map (fun w => ops.name w.node)) := by
          rw [e2]
          refine List.Perm.trans List.perm_append_comm ?_
          rw [List.append_assoc]
          refine List.Perm.trans (List.Perm.append_left _ e1) ?_
          exact List.perm_append_comm
        exact (p1.trans p2).trans p3
      · -- topological closure
        rw [topoFrom]
        refine (Bool.and_eq_true _ _).mpr ⟨?_, ?_⟩
        · rw [List.all_eq_true]
          intro d hd
          rw [hdeps'] at hd
          obtain ⟨m, hm, hmd⟩ := hfin' d hd
          exact List.elem_iff.mpr (List.mem_map.mpr ⟨m, hm, hmd⟩)
        · rw [← htopo]
          congr 1
          rw [List.map_append]
          simp [hname']

/-- Cycle detection by the scheduling loop: if `cyc` is a nonempty set of
names, each naming a pending node, such that every pending node named in
`cyc` depends on some name in `cyc` (as a dependency cycle does), no
in-flight or finished node is named in `cyc`, and every unit involved
succeeds, then the loop terminates with `Error::CircularDependency` and
every tracker operation it performs belongs to a node not named in
`cyc` — in particular no node of the cycle is ever marked Running. -/
theorem dagLoop_cycle (ops : DagOps N) (sched : Nat → Nat) (cyc : List String)
    (Hnode : ∀ n, (ops.spawnUnit n).node = n) (hC : cyc ≠ []) :
    ∀ (M k : Nat) (pending : List N) (running : List (DagUnit N)) (finished : List N),
      pending.length + running.length < M →
      (∀ n ∈ pending, ∃ m, (ops.spawnUnit n).res = .ok m
          ∧ (ops.spawnUnit n).panicked = false ∧ ops.name m = ops.name n) →
      (∀ u ∈ running, u = ops.spawnUnit u.node) →
      (∀ u ∈ running, ∃ m, u.res = .ok m ∧ u.panicked = false
          ∧ ops.name m = ops.name u.node) →
      (∀ cn ∈ cyc, cn ∈ pending.map ops.name) →
      (∀ n ∈ pending, ops.name n ∈ cyc → ∃ d ∈ ops.depends n, d ∈ cyc) →
      (∀ u ∈ running, ops.name u.node ∉ cyc) →
      (∀ m ∈ finished, ops.name m ∉ cyc) →
      ∃ evs,
        dagLoop ops sched M k pending running finished = (.error .circularDependency, evs)
          ∧ ∀ ev ∈ evs, ∃ n, ops.name n ∉ cyc
              ∧ (ev = ops.runningMark n ∨ ev ∈ (ops.spawnUnit n).events) := by
  intro M
  induction M with
  | zero =>
    intro k pending running finished hM B Hu Hruns S1 S2 S3 S4
    exact absurd hM (by omega)
  | succ M ih =>
    intro k pending running finished hM B Hu Hruns S1 S2 S3 S4
    -- a pending node named in the cycle set is never ready
    have hnotready : ∀ n ∈ pending, ops.name n ∈ cyc → ¬ ops.isReady n finished := by
      intro n hn hnc hready
      obtain ⟨d, hd, hdc⟩ := S2 n hn hnc
      obtain ⟨m, hm, hmd⟩ := (isReady_iff ops n finished).mp hready d hd
      exact S4 m hm (hmd ▸ hdc)
    have hlaunchednotc : ∀ n ∈ pending.filter (fun n => ops.isReady n finished),
        ops.name n ∉ cyc := by
      intro n hn hnc
      exact hnotready n (List.mem_filter.mp hn).1 hnc (List.mem_filter.mp hn).2
    by_cases hstuck :
        running ++ (pending.filter (fun n => ops.isReady n finished)).map ops.spawnUnit = []
    · obtain ⟨hrun, hunits⟩ := List.append_eq_nil.mp hstuck
      have hlaunch : pending.filter (fun n => ops.isReady n finished) = [] :=
        List.map_eq_nil_iff.mp hunits
      have hpne : ¬ pending.isEmpty := by
        obtain ⟨cn, hcn⟩ := List.exists_mem_of_ne_nil cyc hC
        obtain ⟨n, hn, _⟩ := List.mem_map.mp (S1 cn hcn)
        intro he
        rw [List.isEmpty_iff.mp he] at hn
        simp at hn
      refine ⟨[], ?_, by simp⟩
      rw [hrun, dagLoop_no_inflight ops sched M k pending finished hlaunch]
      simp [hpne]
    · have hne : (running
          ++ (pending.filter (fun n => ops.isReady n finished)).map ops.spawnUnit).length ≠ 0 :=
        fun h0 => hstuck (List.length_eq_zero.mp h0)
      set launched := pending.filter (fun n => ops.isReady n finished) with hlaunched
      set pending' := pending.filter (fun n => !ops.isReady n finished) with hpending'
      set running' := running ++ launched.map ops.spawnUnit with hrunning'
      have hlt : sched k % running'.length < running'.length :=
        Nat.mod_lt _ (Nat.pos_of_ne_zero hne)
      set u := running'.get ⟨sched k % running'.length, hlt⟩ with hu
      have humem : u ∈ running' := by
        rw [hu]
        exact List.get_mem _ _ _
      have hperm0 : List.Perm running' (u :: running'.eraseIdx (sched k % running'.length)) := by
        rw [hu]
        exact perm_get_cons_eraseIdx running' _ hlt
      -- facts about the in-flight units after the launch pass
      have hunit : ∀ w ∈ running', (w = ops.spawnUnit w.node)
          ∧ (∃ m, w.res = .ok m ∧ w.panicked = false ∧ ops.name m = ops.name w.node)
          ∧ ops.name w.node ∉ cyc := by
        intro w hw
        rw [hrunning'] at hw
        rcases List.mem_append.mp hw with hw | hw
        · exact ⟨Hu w hw, Hruns w hw, S3 w hw⟩
        · obtain ⟨n, hn, hwn⟩ := List.mem_map.mp hw
          subst hwn
          have hn' : n ∈ pending.filter (fun n => ops.isReady n finished) := by
            rw [← hlaunched]
            exact hn
          have hnp : n ∈ pending := (List.mem_filter.mp hn').1
          obtain ⟨m, hres, hpan, hname⟩ := B n hnp
          refine ⟨by rw [Hnode n], ⟨m, hres, hpan, by rw [Hnode n]; exact hname⟩, ?_⟩
          rw [Hnode n]
          exact hlaunchednotc n hn
      obtain ⟨huspawn, ⟨m, hres, hpan, hnamem⟩, hunotc⟩ := hunit u humem
      have hstep := dagLoop_inflight ops sched M k pending running finished running'
        hrunning' u (by rw [List.get?_eq_get hlt])
      rw [hpan, hres] at hstep
      simp only [Bool.false_eq_true, if_false] at hstep
      rw [← hlaunched, ← hpending'] at hstep
      set rest := running'.eraseIdx (sched k % running'.length) with hrest
      have hrestsub : ∀ w ∈ rest, w ∈ running' := by
        intro w hw
        rw [hrest] at hw
        exact List.mem_of_mem_eraseIdx hw
      have hMrec : pending'.length + rest.length < M := by
        have h1 : rest.length = running'.length - 1 := by
          rw [hrest, List.length_eraseIdx]
          simp [hlt]
        have h2 : launched.length + pending'.length = pending.length := by
          rw [hlaunched, hpending']
          have h := List.length_eq_length_filter_add (l := pending)
            (fun n => ops.isReady n finished)
          omega
        have h3 : running'.length = running.length + launched.length := by
          rw [hrunning']
          simp
        have h4 : 0 < running'.length := Nat.pos_of_ne_zero hne
        omega
      have Brec : ∀ n ∈ pending', ∃ w, (ops.spawnUnit n).res = .ok w
          ∧ (ops.spawnUnit n).panicked = false ∧ ops.name w = ops.name n := by
        intro n hn
        rw [hpending'] at hn
        exact B n (List.mem_filter.mp hn).1
      have Hurec : ∀ w ∈ rest, w = ops.spawnUnit w.node :=
        fun w hw => (hunit w (hrestsub w hw)).1
      have Hrunsrec : ∀ w ∈ rest, ∃ x, w.res = .ok x ∧ w.panicked = false
          ∧ ops.name x = ops.name w.node :=
        fun w hw => (hunit w (hrestsub w hw)).2.1
      have S1rec : ∀ cn ∈ cyc, cn ∈ pending'.map ops.name := by
        intro cn hcn
        obtain ⟨n, hn, hname⟩ := List.mem_map.mp (S1 cn hcn)
        refine List.mem_map.mpr ⟨n, ?_, hname⟩
        rw [hpending']
        refine List.mem_filter.mpr ⟨hn, ?_⟩
        simp [hnotready n hn (hname ▸ hcn)]
      have S2rec : ∀ n ∈ pending', ops.name n ∈ cyc → ∃ d ∈ ops.depends n, d ∈ cyc := by
        intro n hn
        rw [hpending'] at hn
        exact S2 n (List.mem_filter.mp hn).1
      have S3rec : ∀ w ∈ rest, ops.name w.node ∉ cyc :=
        fun w hw => (hunit w (hrestsub w hw)).2.2
      have S4rec : ∀ x ∈ finished ++ [m], ops.name x ∉ cyc := by
        intro x hx
        rcases List.mem_append.mp hx with hx | hx
        · exact S4 x hx
        · rw [List.mem_singleton.mp hx, hnamem]
          exact hunotc
      obtain ⟨evs', heq, hevs⟩ :=
        ih (k + 1) pending' rest (finished ++ [m]) hMrec Brec Hurec Hrunsrec S1rec S2rec
          S3rec S4rec
      refine ⟨launched.map ops.runningMark ++ u.events ++ evs', ?_, ?_⟩
      · rw [hstep, heq]
      · intro ev hev
        rcases List.mem_append.mp hev with hev | hev
        · rcases List.mem_append.mp hev with hev | hev
          · obtain ⟨n, hn, hevn⟩ := List.mem_map.mp hev
            exact ⟨n, hlaunchednotc n hn, Or.inl hevn.symm⟩
          · refine ⟨u.node, hunotc, Or.inr ?_⟩
            rw [← huspawn]
            exact hev
        · exact hevs ev hev

/-- The task unit always records its own task as node. -/
theorem taskUnit_node (job_name : String) (env : String → StepEnv) (t : Task) :
    (taskUnit job_name env t).node = t := by
  unfold taskUnit
  rcases h : Task.run job_name (env t.name) t with ⟨r, evs⟩
  cases r <;> simp

/-- A successful `Task::run` makes the spawned closure yield the task. -/
theorem taskUnit_ok (job_name : String) (env : String → StepEnv) (t : Task)
    (h : (Task.run job_name (env t.name) t).1 = .ok) :
    (taskUnit job_name env t).res = .ok t ∧ (taskUnit job_name env t).panicked = false := by
  unfold taskUnit
  rcases he : Task.run job_name (env t.name) t with ⟨r, evs⟩
  rw [he] at h
  cases r <;> simp_all

/-- A failed `Task::run` makes the spawned closure yield the same error. -/
theorem taskUnit_err (job_name : String) (env : String → StepEnv) (t : Task) (e : Error)
    (h : (Task.run job_name (env t.name) t).1 = .err e) :
    (taskUnit job_name env t).res = .error e ∧ (taskUnit job_name env t).panicked = false := by
  unfold taskUnit
  rcases he : Task.run job_name (env t.name) t with ⟨r, evs⟩
  rw [he] at h
  cases r <;> simp_all

/-- `Job::run` never touches the job's name or dependency list. -/
theorem job_run_name_depends (env : String → StepEnv) (sched : Nat → Nat) (j : Job) :
    ((Job.run env sched j).2.1).name = j.name
      ∧ ((Job.run env sched j).2.1).depends = j.depends := by
  unfold Job.run
  cases firstMissingTaskDep j.tasks
  · rcases dagLoop (taskOps j.name env) sched (j.tasks.length + 1) 0 j.tasks [] [] with ⟨r, evs⟩
    cases r <;> simp
  · simp

/-- The job unit always records its own job as node. -/
theorem jobUnit_node (env : String → String → StepEnv) (jsched : String → Nat → Nat)
    (j : Job) : (jobUnit env jsched j).node = j := by
  unfold jobUnit
  rcases h : Job.run (env j.name) (jsched j.name) j with ⟨r, rest⟩
  cases r <;> simp

/-- A successful `Job::run` makes the spawned closure yield the updated
job. -/
theorem jobUnit_ok (env : String → String → StepEnv) (jsched : String → Nat → Nat) (j : Job)
    (h : (Job.run (env j.name) (jsched j.name) j).1 = .ok ()) :
    (jobUnit env jsched j).res = .ok (Job.run (env j.name) (jsched j.name) j).2.1
      ∧ (jobUnit env jsched j).panicked = false := by
  unfold jobUnit
  rcases he : Job.run (env j.name) (jsched j.name) j with ⟨r, j', evs⟩
  rw [he] at h
  cases r <;> simp_all

/-- A failed `Job::run` makes the spawned closure yield the same error. -/
theorem jobUnit_err (env : String → String → StepEnv) (jsched : String → Nat → Nat)
    (j : Job) (e : Error)
    (h : (Job.run (env j.name) (jsched j.name) j).1 = .error e) :
    (jobUnit env jsched j).res = .error e ∧ (jobUnit env jsched j).panicked = false := by
  unfold jobUnit
  rcases he : Job.run (env j.name) (jsched j.name) j with ⟨r, j', evs⟩
  rw [he] at h
  cases r <;> simp_all

/-- When every task dependency names a task of the job, the fail-fast
validation of `Job::run` passes. -/
theorem firstMissingTaskDep_none (tasks : List Task)
    (h : ∀ t ∈ tasks, ∀ d ∈ t.depends, ∃ t' ∈ tasks, t'.name = d) :
    firstMissingTaskDep tasks = none := by
  unfold firstMissingTaskDep
  rw [List.findSome?_eq_none_iff]
  intro t ht
  rw [List.find?_eq_none]
  intro d hd
  obtain ⟨t', ht', hname⟩ := h t ht d hd
  simp only [Bool.not_eq_true', Bool.not_eq_false]
  exact List.any_eq_true.mpr ⟨t', ht', by simp [hname]⟩

/-- When every job dependency names a job of the collection, the
validate-and-insert pass of `Runner::run` succeeds and performs exactly
the mirror insertions. -/
theorem runnerValidateInsert_none (all : List Job) (l : List Job)
    (h : ∀ j ∈ l, ∀ d ∈ j.depends, ∃ j' ∈ all, j'.name = d) :
    (runnerValidateInsert all l).1 = none
      ∧ (runnerValidateInsert all l).2 = l.map (fun j => Event.insertJob (jobStatusInit j)) := by
  induction l with
  | nil => simp [runnerValidateInsert]
  | cons j rest ih =>
    have hfind : j.depends.find? (fun name => !all.any (fun j2 => j2.name == name)) = none := by
      rw [List.find?_eq_none]
      intro d hd
      obtain ⟨j', hj', hname⟩ := h j (by simp) d hd
      simp only [Bool.not_eq_true', Bool.not_eq_false]
      exact List.any_eq_true.mpr ⟨j', hj', by simp [hname]⟩
    obtain ⟨ih1, ih2⟩ := ih (fun x hx => h x (List.mem_cons_of_mem _ hx))
    unfold runnerValidateInsert
    rw [hfind]
    simp [ih1, ih2]

theorem taskOps_name (job_name : String) (env : String → StepEnv) :
    (taskOps job_name env).name = Task.name := rfl

theorem taskOps_depends (job_name : String) (env : String → StepEnv) :
    (taskOps job_name env).depends = Task.depends := rfl

theorem taskOps_spawnUnit (job_name : String) (env : String → StepEnv) :
    (taskOps job_name env).spawnUnit = taskUnit job_name env := rfl

theorem jobOps_name (env : String → String → StepEnv) (jsched : String → Nat → Nat) :
    (jobOps env jsched).name = Job.name := rfl

theorem jobOps_depends (env : String → String → StepEnv) (jsched : String → Nat → Nat) :
    (jobOps env jsched).depends = Job.depends := rfl

theorem jobOps_spawnUnit (env : String → String → StepEnv) (jsched : String → Nat → Nat) :
    (jobOps env jsched).spawnUnit = jobUnit env jsched := rfl

/-- C1: for every collection of jobs (resp. of tasks within a job) whose
dependency graph is acyclic (witnessed by a rank function), whose every
declared dependency names a node of the collection, and whose every unit
of work succeeds, `Runner::run` (resp. `Job::run`) returns `Ok` and
replaces the original collection (`self.jobs`, resp. `self.tasks`) with
the finished nodes in completion order, an order in which no node appears
before all of its dependencies (a valid topological closure), the names
being a permutation of the original ones. -/
theorem run_acyclic_success_topological :
    (∀ (env : String → StepEnv) (sched : Nat → Nat) (j : Job) (rank : String → Nat),
      (∀ t ∈ j.tasks, ∀ d ∈ t.depends, ∃ t' ∈ j.tasks, t'.name = d) →
      (∀ t ∈ j.tasks, ∀ d ∈ t.depends, rank d < rank t.name) →
      (∀ t ∈ j.tasks, (Task.run j.name (env t.name) t).1 = .ok) →
      ∃ g evs, Job.run env sched j = (.ok (), { j with tasks := g }, evs)
        ∧ List.Perm (g.map Task.name) (j.tasks.map Task.name)
        ∧ topoFrom Task.name Task.depends [] g = true)
    ∧ (∀ (env : String → String → StepEnv) (jsched : String → Nat → Nat)
        (sched : Nat → Nat) (r : Runner) (rank : String → Nat),
      (∀ j ∈ r.jobs, ∀ d ∈ j.depends, ∃ j' ∈ r.jobs, j'.name = d) →
      (∀ j ∈ r.jobs, ∀ d ∈ j.depends, rank d < rank j.name) →
      (∀ j ∈ r.jobs, (Job.run (env j.name) (jsched j.name) j).1 = .ok ()) →
      ∃ g evs, Runner.run env jsched sched r = (.ok (), { jobs := g }, evs)
        ∧ List.Perm (g.map Job.name) (r.jobs.map Job.name)
        ∧ topoFrom Job.name Job.depends [] g = true) := by
  constructor
  · intro env sched j rank Hdeps Hrank Hok
    obtain ⟨g, evs, heq, hperm, htopo⟩ := dagLoop_all_ok (taskOps j.name env) sched rank
      (fun t => taskUnit_node j.name env t) (j.tasks.length + 1) 0 j.tasks [] []
      (by simp)
      (fun t ht => ⟨t, (taskUnit_ok _ _ t (Hok t ht)).1,
        (taskUnit_ok _ _ t (Hok t ht)).2, rfl, rfl⟩)
      (by simp)
      (by
        intro t ht d hd
        refine Or.inl ?_
        obtain ⟨t', ht', hn⟩ := Hdeps t ht d hd
        exact List.mem_map.mpr ⟨t', ht', hn⟩)
      Hrank
    rw [List.nil_append] at heq
    rw [taskOps_name] at hperm htopo
    rw [taskOps_depends] at htopo
    rw [List.map_nil, List.append_nil] at hperm
    refine ⟨g, evs, ?_, hperm, by
      rw [show (List.map Task.name ([] : List Task)) = [] from rfl] at htopo
      exact htopo⟩
    unfold Job.run
    rw [firstMissingTaskDep_none j.tasks Hdeps, heq]
  · intro env jsched sched r rank Hdeps Hrank Hok
    obtain ⟨hval1, hval2⟩ := runnerValidateInsert_none r.jobs r.jobs Hdeps
    obtain ⟨g, evs, heq, hperm, htopo⟩ := dagLoop_all_ok (jobOps env jsched) sched rank
      (fun j => jobUnit_node env jsched j) (r.jobs.length + 1) 0 r.jobs [] []
      (by simp)
      (fun j hj => ⟨(Job.run (env j.name) (jsched j.name) j).2.1,
        (jobUnit_ok env jsched j (Hok j hj)).1,
        (jobUnit_ok env jsched j (Hok j hj)).2,
        (job_run_name_depends (env j.name) (jsched j.name) j).1,
        (job_run_name_depends (env j.name) (jsched j.name) j).2⟩)
      (by simp)
      (by
        intro x hx d hd
        refine Or.inl ?_
        obtain ⟨j', hj', hn⟩ := Hdeps x hx d hd
        exact List.mem_map.mpr ⟨j', hj', hn⟩)
      Hrank
    rw [List.nil_append] at heq
    rw [jobOps_name] at hperm htopo
    rw [jobOps_depends] at htopo
    rw [List.map_nil, List.append_nil] at hperm
    have hval : runnerValidateInsert r.jobs r.jobs
        = (none, r.jobs.map (fun j => Event.insertJob (jobStatusInit j))) := by
      rw [Prod.ext_iff]
      exact ⟨hval1, hval2⟩
    refine ⟨g, r.jobs.map (fun j => Event.insertJob (jobStatusInit j)) ++ evs, ?_, hperm, by
      rw [show (List.map Job.name ([] : List Job)) = [] from rfl] at htopo
      exact htopo⟩
    unfold Runner.run
    rw [hval, heq]

/-- Every tracker operation the loop performs is either the Running mark
of some node or comes from the body of some node's spawned unit. -/
theorem dagLoop_events_origin (ops : DagOps N) (sched : Nat → Nat) :
    ∀ (M k : Nat) (pending : List N) (running : List (DagUnit N)) (finished : List N),
      pending.length + running.length < M →
      (∀ u ∈ running, ∃ n, u.events = (ops.spawnUnit n).events) →
      ∀ ev ∈ (dagLoop ops sched M k pending running finished).2,
        ∃ n, ev = ops.runningMark n ∨ ev ∈ (ops.spawnUnit n).events := by
  intro M
  induction M with
  | zero =>
    intro k pending running finished hM Hu
    exact absurd hM (by omega)
  | succ M ih =>
    intro k pending running finished hM Hu
    by_cases hstuck :
        running ++ (pending.filter (fun n => ops.isReady n finished)).map ops.spawnUnit = []
    · obtain ⟨hrun, hunits⟩ := List.append_eq_nil.mp hstuck
      have hlaunch : pending.filter (fun n => ops.isReady n finished) = [] :=
        List.map_eq_nil_iff.mp hunits
      rw [hrun, dagLoop_no_inflight ops sched M k pending finished hlaunch]
      intro ev hev
      rcases hp : pending.isEmpty <;> simp [hp] at hev
    · have hne : (running
          ++ (pending.filter (fun n => ops.isReady n finished)).map ops.spawnUnit).length ≠ 0 :=
        fun h0 => hstuck (List.length_eq_zero.mp h0)
      set launched := pending.filter (fun n => ops.isReady n finished) with hlaunched
      set pending' := pending.filter (fun n => !ops.isReady n finished) with hpending'
      set running' := running ++ launched.map ops.spawnUnit with hrunning'
      have hlt : sched k % running'.length < running'.length :=
        Nat.mod_lt _ (Nat.pos_of_ne_zero hne)
      set u := running'.get ⟨sched k % running'.length, hlt⟩ with hu
      have humem : u ∈ running' := by
        rw [hu]
        exact List.get_mem _ _ _
      have hstep := dagLoop_inflight ops sched M k pending running finished running'
        hrunning' u (by rw [List.get?_eq_get hlt])
      rw [← hlaunched, ← hpending'] at hstep
      set rest := running'.eraseIdx (sched k % running'.length) with hrest
      have hunitsall : ∀ w ∈ running', ∃ n, w.events = (ops.spawnUnit n).events := by
        intro w hw
        rw [hrunning'] at hw
        rcases List.mem_append.mp hw with hw | hw
        · exact Hu w hw
        · obtain ⟨n, _, hwn⟩ := List.mem_map.mp hw
          exact ⟨n, by rw [← hwn]⟩
      have hmarks : ∀ ev ∈ launched.map ops.runningMark,
          ∃ n, ev = ops.runningMark n ∨ ev ∈ (ops.spawnUnit n).events := by
        intro ev hev
        obtain ⟨n, _, hevn⟩ := List.mem_map.mp hev
        exact ⟨n, Or.inl hevn.symm⟩
      have huev : ∀ ev ∈ u.events,
          ∃ n, ev = ops.runningMark n ∨ ev ∈ (ops.spawnUnit n).events := by
        intro ev hev
        obtain ⟨n, hn⟩ := hunitsall u humem
        exact ⟨n, Or.inr (hn ▸ hev)⟩
      rw [hstep]
      rcases hpk : u.panicked with hp | hp
      · rcases hres : u.res with e | n'
        · simp only [if_false, Bool.false_eq_true]
          intro ev hev
          rcases List.mem_append.mp hev with hev | hev
          · exact hmarks ev hev
          · exact huev ev hev
        · simp only [if_false, Bool.false_eq_true]
          intro ev hev
          rcases List.mem_append.mp hev with hev | hev
          · rcases List.mem_append.mp hev with hev | hev
            · exact hmarks ev hev
            · exact huev ev hev
          · have hMrec : pending'.length + rest.length < M := by
              have h1 : rest.length = running'.length - 1 := by
                rw [hrest, List.length_eraseIdx]
                simp [hlt]
              have h2 : launched.length + pending'.length = pending.length := by
                rw [hlaunched, hpending']
                have h := List.length_eq_length_filter_add (l := pending)
                  (fun n => ops.isReady n finished)
                omega
              have h3 : running'.length = running.length + launched.length := by
                rw [hrunning']
                simp
              have h4 : 0 < running'.length := Nat.pos_of_ne_zero hne
              omega
            have Hurec : ∀ w ∈ rest, ∃ n, w.events = (ops.spawnUnit n).events := by
              intro w hw
              refine hunitsall w ?_
              rw [hrest] at hw
              exact List.mem_of_mem_eraseIdx hw
            exact ih (k + 1) pending' rest (finished ++ [n']) hMrec Hurec ev hev
      · simp only [if_true]
        intro ev hev
        rcases List.mem_append.mp hev with hev | hev
        · exact hmarks ev hev
        · exact huev ev hev

/-- Every error the loop returns is the circular-dependency error, a join
error, or an error produced by some node's spawned unit, propagated
unchanged. -/
theorem dagLoop_error_origin (ops : DagOps N) (sched : Nat → Nat) :
    ∀ (M k : Nat) (pending : List N) (running : List (DagUnit N)) (finished : List N),
      pending.length + running.length < M →
      (∀ u ∈ running, ∃ n, u.res = (ops.spawnUnit n).res) →
      ∀ e, (dagLoop ops sched M k pending running finished).1 = .error e →
        e = .circularDependency ∨ e = .join
          ∨ ∃ n, (ops.spawnUnit n).res = .error e := by
  intro M
  induction M with
  | zero =>
    intro k pending running finished hM Hu e
    exact absurd hM (by omega)
  | succ M ih =>
    intro k pending running finished hM Hu e
    by_cases hstuck :
        running ++ (pending.filter (fun n => ops.isReady n finished)).map ops.spawnUnit = []
    · obtain ⟨hrun, hunits⟩ := List.append_eq_nil.mp hstuck
      have hlaunch : pending.filter (fun n => ops.isReady n finished) = [] :=
        List.map_eq_nil_iff.mp hunits
      rw [hrun, dagLoop_no_inflight ops sched M k pending finished hlaunch]
      rcases hp : pending.isEmpty <;> simp [hp]
      intro he
      exact Or.inl he.symm
    · have hne : (running
          ++ (pending.filter (fun n => ops.isReady n finished)).map ops.spawnUnit).length ≠ 0 :=
        fun h0 => hstuck (List.length_eq_zero.mp h0)
      set launched := pending.filter (fun n => ops.isReady n finished) with hlaunched
      set pending' := pending.filter (fun n => !ops.isReady n finished) with hpending'
      set running' := running ++ launched.map ops.spawnUnit with hrunning'
      have hlt : sched k % running'.length < running'.length :=
        Nat.mod_lt _ (Nat.pos_of_ne_zero hne)
      set u := running'.get ⟨sched k % running'.length, hlt⟩ with hu
      have humem : u ∈ running' := by
        rw [hu]
        exact List.get_mem _ _ _
      have hstep := dagLoop_inflight ops sched M k pending running finished running'
        hrunning' u (by rw [List.get?_eq_get hlt])
      rw [← hlaunched, ← hpending'] at hstep
      set rest := running'.eraseIdx (sched k % running'.length) with hrest
      have hunitsall : ∀ w ∈ running', ∃ n, w.res = (ops.spawnUnit n).res := by
        intro w hw
        rw [hrunning'] at hw
        rcases List.mem_append.mp hw with hw | hw
        · exact Hu w hw
        · obtain ⟨n, _, hwn⟩ := List.mem_map.mp hw
          exact ⟨n, by rw [← hwn]⟩
      rw [hstep]
      rcases hpk : u.panicked with hp | hp
      · rcases hres : u.res with e' | n'
        · simp only [if_false, Bool.false_eq_true]
          intro he
          obtain ⟨n, hn⟩ := hunitsall u humem
          refine Or.inr (Or.inr ⟨n, ?_⟩)
          rw [← hn, hres]
          exact congrArg Except.error (Except.error.inj he)
        · simp only [if_false, Bool.false_eq_true]
          intro he
          have hMrec : pending'.length + rest.length < M := by
            have h1 : rest.length = running'.length - 1 := by
              rw [hrest, List.length_eraseIdx]
              simp [hlt]
            have h2 : launched.length + pending'.length = pending.length := by
              rw [hlaunched, hpending']
              have h := List.length_eq_length_filter_add (l := pending)
                (fun n => ops.isReady n finished)
              omega
            have h3 : running'.length = running.length + launched.length := by
              rw [hrunning']
              simp
            have h4 : 0 < running'.length := Nat.pos_of_ne_zero hne
            omega
          have Hurec : ∀ w ∈ rest, ∃ n, w.res = (ops.spawnUnit n).res := by
            intro w hw
            refine hunitsall w ?_
            rw [hrest] at hw
            exact List.mem_of_mem_eraseIdx hw
          exact ih (k + 1) pending' rest (finished ++ [n']) hMrec Hurec e he
      · simp only [if_true]
        intro he
        exact Or.inr (Or.inl (Except.error.inj he).symm)

/-- Every tracker operation of `Step::run` is a step-status update or an
output line of its own step coordinates. -/
theorem step_run_events_shape (jn tn : String) (i : Nat) (env : StepEnv) (s : Step) :
    ∀ ev ∈ (Step.run jn tn i env s).2,
      (∃ idx st, ev = Event.setStep jn tn idx st)
        ∨ ∃ idx ln, ev = Event.logLine jn tn idx ln := by
  rcases s with ⟨args⟩
  intro ev hev
  cases hsp : Step.spawnArgs args with
  | none =>
    simp only [Step.run, hsp] at hev
    simp at hev
    exact Or.inl ⟨i, .running, hev⟩
  | some p =>
    cases ho : env.out i with
    | spawnError =>
      simp only [Step.run, hsp, ho] at hev
      simp at hev
      exact Or.inl ⟨i, .running, hev⟩
    | waitError =>
      simp only [Step.run, hsp, ho] at hev
      simp at hev
      rcases hev with hev | hev
      · exact Or.inl ⟨i, .running, hev⟩
      · obtain ⟨ln, _, hln⟩ := hev
        exact Or.inr ⟨i, ln, hln.symm⟩
    | exit c =>
      simp only [Step.run, hsp, ho] at hev
      by_cases hc : (c == 0) = true <;> simp [hc] at hev <;>
        rcases hev with hev | hev | hev
      · exact Or.inl ⟨i, .running, hev⟩
      · obtain ⟨ln, _, hln⟩ := hev
        exact Or.inr ⟨i, ln, hln.symm⟩
      · exact Or.inl ⟨i, .finished, hev⟩
      · exact Or.inl ⟨i, .running, hev⟩
      · obtain ⟨ln, _, hln⟩ := hev
        exact Or.inr ⟨i, ln, hln.symm⟩
      · exact Or.inl ⟨i, .failed, hev⟩

/-- Every tracker operation of the step loop of `Task::run` is a
step-status update or an output line. -/
theorem task_runSteps_events_shape (jn tn : String) (env : StepEnv) :
    ∀ (steps : List Step) (i : Nat), ∀ ev ∈ (Task.runSteps jn tn env i steps).2,
      (∃ idx st, ev = Event.setStep jn tn idx st)
        ∨ ∃ idx ln, ev = Event.logLine jn tn idx ln := by
  intro steps
  induction steps with
  | nil => simp [Task.runSteps]
  | cons s rest ih =>
    intro i ev hev
    rcases hs : Step.run jn tn i env s with ⟨r, evs⟩
    cases r with
    | ok =>
      simp only [Task.runSteps, hs] at hev
      rcases List.mem_append.mp hev with hev | hev
      · exact step_run_events_shape jn tn i env s ev (by rw [hs]; exact hev)
      · exact ih (i + 1) ev hev
    | err e =>
      simp only [Task.runSteps, hs] at hev
      exact step_run_events_shape jn tn i env s ev (by rw [hs]; exact hev)
    | panicked =>
      simp only [Task.runSteps, hs] at hev
      exact step_run_events_shape jn tn i env s ev (by rw [hs]; exact hev)

/-- Every tracker operation of the task unit spawned by `Job::run` is
scoped to that task: a step update, an output line, or the final
Finished/Failed mark of the task itself — never a Running mark. -/
theorem taskUnit_events_shape (jn : String) (env : String → StepEnv) (t : Task) :
    ∀ ev ∈ (taskUnit jn env t).events,
      (∃ idx st, ev = Event.setStep jn t.name idx st)
        ∨ (∃ idx ln, ev = Event.logLine jn t.name idx ln)
        ∨ ∃ st, st ≠ Status.running ∧ ev = Event.setTask jn t.name st := by
  intro ev hev
  unfold taskUnit at hev
  rcases hr : Task.run jn (env t.name) t with ⟨r, evs⟩
  have hevs : ∀ e ∈ evs,
      (∃ idx st, e = Event.setStep jn t.name idx st)
        ∨ ∃ idx ln, e = Event.logLine jn t.name idx ln := by
    intro e he
    refine task_runSteps_events_shape jn t.name (env t.name) t.steps 0 e ?_
    have : (Task.run jn (env t.name) t).2 = evs := by rw [hr]
    rw [Task.run] at this
    rw [this]
    exact he
  rw [hr] at hev
  cases r with
  | ok =>
    simp only at hev
    rcases List.mem_append.mp hev with hev | hev
    · rcases hevs ev hev with h | h
      · exact Or.inl h
      · exact Or.inr (Or.inl h)
    · rw [List.mem_singleton.mp hev]
      exact Or.inr (Or.inr ⟨.finished, by simp, rfl⟩)
  | err e =>
    simp only at hev
    rcases List.mem_append.mp hev with hev | hev
    · rcases hevs ev hev with h | h
      · exact Or.inl h
      · exact Or.inr (Or.inl h)
    · rw [List.mem_singleton.mp hev]
      exact Or.inr (Or.inr ⟨.failed, by simp, rfl⟩)
  | panicked =>
    simp only at hev
    rcases hevs ev hev with h | h
    · exact Or.inl h
    · exact Or.inr (Or.inl h)

/-- Every tracker operation of `Job::run` is scoped below the job: a task
or step status update or an output line — never a job-level update. -/
theorem job_run_events_shape (env : String → StepEnv) (sched : Nat → Nat) (j : Job) :
    ∀ ev ∈ (Job.run env sched j).2.2,
      (∃ tn st, ev = Event.setTask j.name tn st)
        ∨ (∃ tn idx st, ev = Event.setStep j.name tn idx st)
        ∨ ∃ tn idx ln, ev = Event.logLine j.name tn idx ln := by
  intro ev hev
  have hloop : ∀ e ∈ (dagLoop (taskOps j.name env) sched (j.tasks.length + 1) 0 j.tasks [] []).2,
      (∃ tn st, e = Event.setTask j.name tn st)
        ∨ (∃ tn idx st, e = Event.setStep j.name tn idx st)
        ∨ ∃ tn idx ln, e = Event.logLine j.name tn idx ln := by
    intro e he
    obtain ⟨t, ht⟩ := dagLoop_events_origin (taskOps j.name env) sched
      (j.tasks.length + 1) 0 j.tasks [] [] (by simp) (by simp) e he
    rcases ht with ht | ht
    · exact Or.inl ⟨t.name, .running, ht⟩
    · rcases taskUnit_events_shape j.name env t e ht with h | h | h
      · obtain ⟨idx, st, hst⟩ := h
        exact Or.inr (Or.inl ⟨t.name, idx, st, hst⟩)
      · obtain ⟨idx, ln, hln⟩ := h
        exact Or.inr (Or.inr ⟨t.name, idx, ln, hln⟩)
      · obtain ⟨st, _, hst⟩ := h
        exact Or.inl ⟨t.name, st, hst⟩
  unfold Job.run at hev
  cases hval : firstMissingTaskDep j.tasks with
  | some d =>
    rw [hval] at hev
    simp at hev
  | none =>
    rw [hval] at hev
    rcases hd : dagLoop (taskOps j.name env) sched (j.tasks.length + 1) 0 j.tasks [] [] with ⟨r, evs⟩
    rw [hd] at hev
    cases r with
    | ok finished =>
      simp only at hev
      exact hloop ev (by rw [hd]; exact hev)
    | error e =>
      simp only at hev
      exact hloop ev (by rw [hd]; exact hev)

/-- Every tracker operation of the job unit spawned by `Runner::run` is
scoped to that job: task/step updates and output lines, or the final
Finished/Failed mark of the job itself — never a job Running mark. -/
theorem jobUnit_events_shape (env : String → String → StepEnv)
    (jsched : String → Nat → Nat) (j : Job) :
    ∀ ev ∈ (jobUnit env jsched j).events,
      (∃ tn st, ev = Event.setTask j.name tn st)
        ∨ (∃ tn idx st, ev = Event.setStep j.name tn idx st)
        ∨ (∃ tn idx ln, ev = Event.logLine j.name tn idx ln)
        ∨ ∃ st, st ≠ Status.running ∧ ev = Event.setJob j.name st := by
  intro ev hev
  unfold jobUnit at hev
  rcases hr : Job.run (env j.name) (jsched j.name) j with ⟨r, j', evs⟩
  have hevs : ∀ e ∈ evs,
      (∃ tn st, e = Event.setTask j.name tn st)
        ∨ (∃ tn idx st, e = Event.setStep j.name tn idx st)
        ∨ ∃ tn idx ln, e = Event.logLine j.name tn idx ln := by
    intro e he
    refine job_run_events_shape (env j.name) (jsched j.name) j e ?_
    rw [hr]
    exact he
  rw [hr] at hev
  cases r with
  | ok u =>
    simp only at hev
    rcases List.mem_append.mp hev with hev | hev
    · rcases hevs ev hev with h | h | h
      · exact Or.inl h
      · exact Or.inr (Or.inl h)
      · exact Or.inr (Or.inr (Or.inl h))
    · rw [List.mem_singleton.mp hev]
      exact Or.inr (Or.inr (Or.inr ⟨.finished, by simp, rfl⟩))
  | error e =>
    simp only at hev
    rcases List.mem_append.mp hev with hev | hev
    · rcases hevs ev hev with h | h | h
      · exact Or.inl h
      · exact Or.inr (Or.inl h)
      · exact Or.inr (Or.inr (Or.inl h))
    · rw [List.mem_singleton.mp hev]
      exact Or.inr (Or.inr (Or.inr ⟨.failed, by simp, rfl⟩))

/-- C3: in every scheduling state of `Job::run` or `Runner::run` (both
run the loop `dagLoop`) where no pending node is ready, nothing is in
flight, and the pending set is non-empty, the scheduler returns
`Error::CircularDependency`; moreover, for a dependency cycle (a
nonempty set `cyc` of node names, each present, each of whose nodes
depends on another name of `cyc`), with all dependencies present and all
units succeeding, `Job::run` (resp. `Runner::run`) returns
`Error::CircularDependency` and no node of the cycle is ever marked
Running in the tracker. -/
theorem run_circular_dependency_detected :
    (∀ (N : Type) (ops : DagOps N) (sched : Nat → Nat) (fuel k : Nat)
        (pending finished : List N),
      (∀ n ∈ pending, ¬ ops.isReady n finished) → pending ≠ [] →
      dagLoop ops sched (fuel + 1) k pending [] finished = (.error .circularDependency, []))
    ∧ (∀ (env : String → StepEnv) (sched : Nat → Nat) (j : Job) (cyc : List String),
      cyc ≠ [] →
      (∀ cn ∈ cyc, cn ∈ j.tasks.map Task.name) →
      (∀ t ∈ j.tasks, t.name ∈ cyc → ∃ d ∈ t.depends, d ∈ cyc) →
      (∀ t ∈ j.tasks, ∀ d ∈ t.depends, ∃ t' ∈ j.tasks, t'.name = d) →
      (∀ t ∈ j.tasks, (Task.run j.name (env t.name) t).1 = .ok) →
      ∃ evs, Job.run env sched j = (.error .circularDependency, j, evs)
        ∧ ∀ cn ∈ cyc, Event.setTask j.name cn .running ∉ evs)
    ∧ (∀ (env : String → String → StepEnv) (jsched : String → Nat → Nat)
        (sched : Nat → Nat) (r : Runner) (cyc : List String),
      cyc ≠ [] →
      (∀ cn ∈ cyc, cn ∈ r.jobs.map Job.name) →
      (∀ j ∈ r.jobs, j.name ∈ cyc → ∃ d ∈ j.depends, d ∈ cyc) →
      (∀ j ∈ r.jobs, ∀ d ∈ j.depends, ∃ j' ∈ r.jobs, j'.name = d) →
      (∀ j ∈ r.jobs, (Job.run (env j.name) (jsched j.name) j).1 = .ok ()) →
      ∃ evs, Runner.run env jsched sched r = (.error .circularDependency, r, evs)
        ∧ ∀ cn ∈ cyc, Event.setJob cn .running ∉ evs) := by
  refine ⟨?_, ?_, ?_⟩
  · intro N ops sched fuel k pending finished hnr hne
    rw [dagLoop_no_inflight ops sched fuel k pending finished
      (List.filter_eq_nil_iff.mpr (by simpa using hnr))]
    simp [hne]
  · intro env sched j cyc hC S1 S2 Hdeps Hok
    obtain ⟨evs, heq, hevs⟩ := dagLoop_cycle (taskOps j.name env) sched cyc
      (fun t => taskUnit_node j.name env t) hC (j.tasks.length + 1) 0 j.tasks [] []
      (by simp)
      (fun t ht => ⟨t, (taskUnit_ok _ _ t (Hok t ht)).1,
        (taskUnit_ok _ _ t (Hok t ht)).2, rfl⟩)
      (by simp) (by simp) S1 S2 (by simp) (by simp)
    refine ⟨evs, ?_, ?_⟩
    · unfold Job.run
      rw [firstMissingTaskDep_none j.tasks Hdeps, heq]
    · intro cn hcn hmem
      obtain ⟨t, htc, hor⟩ := hevs _ hmem
      rcases hor with hor | hor
      · rw [taskOps_name] at htc
        have : cn = t.name := by
          have := hor
          simp only [taskOps] at this
          exact (Event.setTask.inj this.symm).2.1.symm
        exact htc (this ▸ hcn)
      · rw [taskOps_spawnUnit] at hor
        rcases taskUnit_events_shape j.name env t _ hor with h | h | h
        · obtain ⟨idx, st, hst⟩ := h
          exact Event.noConfusion hst
        · obtain ⟨idx, ln, hln⟩ := h
          exact Event.noConfusion hln
        · obtain ⟨st, hstr, hst⟩ := h
          exact hstr (Event.setTask.inj hst).2.2.symm
  · intro env jsched sched r cyc hC S1 S2 Hdeps Hok
    obtain ⟨hval1, hval2⟩ := runnerValidateInsert_none r.jobs r.jobs Hdeps
    obtain ⟨evs, heq, hevs⟩ := dagLoop_cycle (jobOps env jsched) sched cyc
      (fun j => jobUnit_node env jsched j) hC (r.jobs.length + 1) 0 r.jobs [] []
      (by simp)
      (fun j hj => ⟨(Job.run (env j.name) (jsched j.name) j).2.1,
        (jobUnit_ok env jsched j (Hok j hj)).1,
        (jobUnit_ok env jsched j (Hok j hj)).2,
        (job_run_name_depends (env j.name) (jsched j.name) j).1⟩)
      (by simp) (by simp) S1 S2 (by simp) (by simp)
    have hval : runnerValidateInsert r.jobs r.jobs
        = (none, r.jobs.map (fun j => Event.insertJob (jobStatusInit j))) := by
      rw [Prod.ext_iff]
      exact ⟨hval1, hval2⟩
    refine ⟨r.jobs.map (fun j => Event.insertJob (jobStatusInit j)) ++ evs, ?_, ?_⟩
    · unfold Runner.run
      rw [hval, heq]
    · intro cn hcn hmem
      rcases List.mem_append.mp hmem with hmem | hmem
      · obtain ⟨x, _, hx⟩ := List.mem_map.mp hmem
        exact Event.noConfusion hx
      · obtain ⟨jb, hjc, hor⟩ := hevs _ hmem
        rcases hor with hor | hor
        · rw [jobOps_name] at hjc
          have : cn = jb.name := by
            have := hor
            simp only [jobOps] at this
            exact (Event.setJob.inj this.symm).1.symm
          exact hjc (this ▸ hcn)
        · rw [jobOps_spawnUnit] at hor
          rcases jobUnit_events_shape env jsched jb _ hor with h | h | h | h
          · obtain ⟨tn, st, hst⟩ := h
            exact Event.noConfusion hst
          · obtain ⟨tn, idx, st, hst⟩ := h
            exact Event.noConfusion hst
          · obtain ⟨tn, idx, ln, hln⟩ := h
            exact Event.noConfusion hln
          · obtain ⟨st, hstr, hst⟩ := h
            exact hstr (Event.setJob.inj hst).2.symm

/-- Extra fuel beyond the iteration measure does not change the loop:
the `fuel` parameter is an artifact of the embedding, not of the
algorithm. -/
theorem dagLoop_fuel_mono (ops : DagOps N) (sched : Nat → Nat) :
    ∀ (fuel extra k : Nat) (pending : List N) (running : List (DagUnit N)) (finished : List N),
      pending.length + running.length < fuel →
      dagLoop ops sched (fuel + extra) k pending running finished
        = dagLoop ops sched fuel k pending running finished := by
  intro fuel
  induction fuel with
  | zero =>
    intro extra k pending running finished hM
    exact absurd hM (by omega)
  | succ M ih =>
    intro extra k pending running finished hM
    have harr : M + 1 + extra = (M + extra) + 1 := by omega
    rw [harr]
    by_cases hstuck :
        running ++ (pending.filter (fun n => ops.isReady n finished)).map ops.spawnUnit = []
    · obtain ⟨hrun, hunits⟩ := List.append_eq_nil.mp hstuck
      have hlaunch : pending.filter (fun n => ops.isReady n finished) = [] :=
        List.map_eq_nil_iff.mp hunits
      rw [hrun, dagLoop_no_inflight ops sched (M + extra) k pending finished hlaunch,
        dagLoop_no_inflight ops sched M k pending finished hlaunch]
    · have hne : (running
          ++ (pending.filter (fun n => ops.isReady n finished)).map ops.spawnUnit).length ≠ 0 :=
        fun h0 => hstuck (List.length_eq_zero.mp h0)
      set launched := pending.filter (fun n => ops.isReady n finished) with hlaunched
      set pending' := pending.filter (fun n => !ops.isReady n finished) with hpending'
      set running' := running ++ launched.map ops.spawnUnit with hrunning'
      have hlt : sched k % running'.length < running'.length :=
        Nat.mod_lt _ (Nat.pos_of_ne_zero hne)
      set u := running'.get ⟨sched k % running'.length, hlt⟩ with hu
      have hstepL := dagLoop_inflight ops sched (M + extra) k pending running finished running'
        hrunning' u (by rw [List.get?_eq_get hlt])
      have hstepR := dagLoop_inflight ops sched M k pending running finished running'
        hrunning' u (by rw [List.get?_eq_get hlt])
      rw [← hlaunched, ← hpending'] at hstepL hstepR
      rw [hstepL, hstepR]
      set rest := running'.eraseIdx (sched k % running'.length) with hrest
      have hMrec : pending'.length + rest.length < M := by
        have h1 : rest.length = running'.length - 1 := by
          rw [hrest, List.length_eraseIdx]
          simp [hlt]
        have h2 : launched.length + pending'.length = pending.length := by
          rw [hlaunched, hpending']
          have h := List.length_eq_length_filter_add (l := pending)
            (fun n => ops.isReady n finished)
          omega
        have h3 : running'.length = running.length + launched.length := by
          rw [hrunning']
          simp
        have h4 : 0 < running'.length := Nat.pos_of_ne_zero hne
        omega
      rcases hpk : u.panicked with hp | hp
      · rcases hres : u.res with e | n'
        · simp only [Bool.false_eq_true, if_false]
        · simp only [Bool.false_eq_true, if_false]
          rw [ih extra (k + 1) pending' rest (finished ++ [n']) hMrec]
      · simp only [if_true]

/-- The value of the loop is the same for any two sufficient fuels. -/
theorem dagLoop_fuel_irrelevant (ops : DagOps N) (sched : Nat → Nat)
    (fuel fuel' k : Nat) (pending : List N) (running : List (DagUnit N)) (finished : List N)
    (h : pending.length + running.length < fuel)
    (h' : pending.length + running.length < fuel') :
    dagLoop ops sched fuel k pending running finished
      = dagLoop ops sched fuel' k pending running finished := by
  set m := pending.length + running.length with hm
  have e1 := dagLoop_fuel_mono ops sched (m + 1) (fuel - m - 1) k pending running finished
    (by omega)
  have e2 := dagLoop_fuel_mono ops sched (m + 1) (fuel' - m - 1) k pending running finished
    (by omega)
  have hf : m + 1 + (fuel - m - 1) = fuel := by omega
  have hf' : m + 1 + (fuel' - m - 1) = fuel' := by omega
  rw [hf] at e1
  rw [hf'] at e2
  rw [e1, e2]

/-- The only errors a `Command` step produces are the I/O error of a
failed spawn/wait and the exit-status error of a non-zero exit. -/
theorem step_run_err_forms (jn tn : String) (i : Nat) (env : StepEnv) (s : Step) (e : Error)
    (h : (Step.run jn tn i env s).1 = .err e) :
    e = .ioError ∨ ∃ c, c ≠ 0 ∧ e = .exit c := by
  rcases s with ⟨args⟩
  cases hsp : Step.spawnArgs args with
  | none => simp [Step.run, hsp] at h
  | some p =>
    cases ho : env.out i with
    | spawnError =>
      simp [Step.run, hsp, ho] at h
      exact Or.inl h.symm
    | waitError =>
      simp [Step.run, hsp, ho] at h
      exact Or.inl h.symm
    | exit c =>
      by_cases hc : (c == 0) = true <;> simp [Step.run, hsp, ho, hc] at h
      exact Or.inr ⟨c, by simpa using hc, h.symm⟩

/-- The step loop of `Task::run` only surfaces step errors. -/
theorem task_runSteps_err_forms (jn tn : String) (env : StepEnv) :
    ∀ (steps : List Step) (i : Nat) (e : Error),
      (Task.runSteps jn tn env i steps).1 = .err e →
      e = .ioError ∨ ∃ c, c ≠ 0 ∧ e = .exit c := by
  intro steps
  induction steps with
  | nil => simp [Task.runSteps]
  | cons s rest ih =>
    intro i e h
    rcases hs : Step.run jn tn i env s with ⟨r, evs⟩
    cases r with
    | ok =>
      simp only [Task.runSteps, hs] at h
      exact ih (i + 1) e h
    | err e' =>
      simp only [Task.runSteps, hs] at h
      have he : e' = e := by simpa using h
      rw [← he]
      exact step_run_err_forms jn tn i env s e' (by rw [hs])
    | panicked => simp [Task.runSteps, hs] at h

/-- `Task::run` only surfaces step errors. -/
theorem task_run_err_forms (jn : String) (env : StepEnv) (t : Task) (e : Error)
    (h : (Task.run jn env t).1 = .err e) :
    e = .ioError ∨ ∃ c, c ≠ 0 ∧ e = .exit c :=
  task_runSteps_err_forms jn t.name env t.steps 0 e (by rw [← Task.run]; exact h)

/-- A task unit only fails with a join error (from a panic), an I/O error
or an exit-status error — in particular never with `TaskFailed`. -/
theorem taskUnit_res_error_forms (jn : String) (env : String → StepEnv) (t : Task) (e : Error)
    (h : (taskUnit jn env t).res = .error e) :
    e = .join ∨ e = .ioError ∨ ∃ c, c ≠ 0 ∧ e = .exit c := by
  unfold taskUnit at h
  rcases hr : Task.run jn (env t.name) t with ⟨r, evs⟩
  rw [hr] at h
  cases r with
  | ok => simp at h
  | err e' =>
    simp at h
    rcases task_run_err_forms jn (env t.name) t e' (by rw [hr]) with h' | h'
    · exact Or.inr (Or.inl (h ▸ h'))
    · exact Or.inr (Or.inr (h ▸ h'))
  | panicked =>
    simp at h
    exact Or.inl h.symm

/-- The error forms of `Job::run`: a missing dependency, circular
dependency, join, I/O or exit-status error — never `TaskFailed` or
`JobFailed`. -/
theorem job_run_error_forms (env : String → StepEnv) (sched : Nat → Nat) (j : Job) (e : Error)
    (h : (Job.run env sched j).1 = .error e) :
    (∃ nm, e = .missingDependency nm) ∨ e = .circularDependency ∨ e = .join
      ∨ e = .ioError ∨ ∃ c, c ≠ 0 ∧ e = .exit c := by
  unfold Job.run at h
  cases hval : firstMissingTaskDep j.tasks with
  | some d =>
    rw [hval] at h
    simp at h
    exact Or.inl ⟨j.name ++ "/" ++ d, h.symm⟩
  | none =>
    rw [hval] at h
    rcases hd : dagLoop (taskOps j.name env) sched (j.tasks.length + 1) 0 j.tasks [] []
      with ⟨r, evs⟩
    rw [hd] at h
    cases r with
    | ok finished => simp at h
    | error e' =>
      simp at h
      rw [← h]
      rcases dagLoop_error_origin (taskOps j.name env) sched (j.tasks.length + 1) 0
        j.tasks [] [] (by simp) (by simp) e' (by rw [hd]) with h' | h' | h'
      · exact Or.inr (Or.inl h')
      · exact Or.inr (Or.inr (Or.inl h'))
      · obtain ⟨t, ht⟩ := h'
        rcases taskUnit_res_error_forms j.name env t e' ht with h'' | h'' | h''
        · exact Or.inr (Or.inr (Or.inl h''))
        · exact Or.inr (Or.inr (Or.inr (Or.inl h'')))
        · exact Or.inr (Or.inr (Or.inr (Or.inr h'')))

/-- A job unit only fails with one of the `Job::run` error forms. -/
theorem jobUnit_res_error_forms (env : String → String → StepEnv)
    (jsched : String → Nat → Nat) (j : Job) (e : Error)
    (h : (jobUnit env jsched j).res = .error e) :
    (∃ nm, e = .missingDependency nm) ∨ e = .circularDependency ∨ e = .join
      ∨ e = .ioError ∨ ∃ c, c ≠ 0 ∧ e = .exit c := by
  unfold jobUnit at h
  rcases hr : Job.run (env j.name) (jsched j.name) j with ⟨r, j', evs⟩
  rw [hr] at h
  cases r with
  | ok u => simp at h
  | error e' =>
    simp at h
    rw [← h]
    exact job_run_error_forms (env j.name) (jsched j.name) j e' (by rw [hr])

/-- The error forms of `Runner::run`: as for `Job::run` — never
`TaskFailed` or `JobFailed`. -/
theorem runner_run_error_forms (env : String → String → StepEnv)
    (jsched : String → Nat → Nat) (sched : Nat → Nat) (r : Runner) (e : Error)
    (h : (Runner.run env jsched sched r).1 = .error e) :
    (∃ nm, e = .missingDependency nm) ∨ e = .circularDependency ∨ e = .join
      ∨ e = .ioError ∨ ∃ c, c ≠ 0 ∧ e = .exit c := by
  unfold Runner.run at h
  rcases hv : runnerValidateInsert r.jobs r.jobs with ⟨v, evs0⟩
  rw [hv] at h
  cases v with
  | some d =>
    simp at h
    exact Or.inl ⟨d, h.symm⟩
  | none =>
    rcases hd : dagLoop (jobOps env jsched) sched (r.jobs.length + 1) 0 r.jobs [] []
      with ⟨res, evs⟩
    rw [hd] at h
    cases res with
    | ok finished => simp at h
    | error e' =>
      simp at h
      rw [← h]
      rcases dagLoop_error_origin (jobOps env jsched) sched (r.jobs.length + 1) 0
        r.jobs [] [] (by simp) (by simp) e' (by rw [hd]) with h' | h' | h'
      · exact Or.inr (Or.inl h')
      · exact Or.inr (Or.inr (Or.inl h'))
      · obtain ⟨jb, hjb⟩ := h'
        exact jobUnit_res_error_forms env jsched jb e' hjb

/-- C2 counterexample: on the spec's own scenario — a job with task `b`
depending on task `a`, and `a`'s step exiting with code 1 — `Job::run`
returns the step's exit-status error itself, not an error wrapping the
failing task as `TaskFailed`; likewise `Runner::run` propagates the
job's underlying error and never wraps it as `JobFailed`. -/
theorem taskFailed_never_constructed_counterexample :
    (Job.run envFailA (fun _ => 0) jobAB).1 = .error (.exit 1)
      ∧ (∀ t : Task, (Job.run envFailA (fun _ => 0) jobAB).1 ≠ .error (.taskFailed t))
      ∧ (Runner.run (fun _ _ => envAllFail) (fun _ _ => 0) (fun _ => 0) runnerFail).1
          = .error (.exit 1)
      ∧ ∀ jb : Job, (Runner.run (fun _ _ => envAllFail) (fun _ _ => 0) (fun _ => 0)
          runnerFail).1 ≠ .error (.jobFailed jb) := by
  have h1 : (Job.run envFailA (fun _ => 0) jobAB).1 = .error (.exit 1) := rfl
  have h2 : (Runner.run (fun _ _ => envAllFail) (fun _ _ => 0) (fun _ => 0) runnerFail).1
      = .error (.exit 1) := rfl
  refine ⟨h1, ?_, h2, ?_⟩
  · intro t h
    rw [h1] at h
    exact Error.noConfusion (Except.error.inj h)
  · intro jb h
    rw [h2] at h
    exact Error.noConfusion (Except.error.inj h)

/-- C2 amended: when a unit of work fails, the scheduling loop of
`Job::run`/`Runner::run` returns that unit's error unchanged, and every
error either scheduler returns is a missing-dependency, circular
dependency, join, I/O or exit-status error — the `TaskFailed` and
`JobFailed` wrappers are never constructed, so the returned error does
not carry the failing node. -/
theorem run_propagates_unit_error_unwrapped :
    (∀ (N : Type) (ops : DagOps N) (sched : Nat → Nat) (fuel k : Nat)
        (pending : List N) (running : List (DagUnit N)) (finished : List N)
        (running' : List (DagUnit N)) (u : DagUnit N) (e : Error),
      running' = running
        ++ (pending.filter (fun n => ops.isReady n finished)).map ops.spawnUnit →
      running'.get? (sched k % running'.length) = some u →
      u.panicked = false → u.res = .error e →
      (dagLoop ops sched (fuel + 1) k pending running finished).1 = .error e)
    ∧ (∀ (env : String → StepEnv) (sched : Nat → Nat) (j : Job) (e : Error),
        (Job.run env sched j).1 = .error e →
        ((∃ nm, e = .missingDependency nm) ∨ e = .circularDependency ∨ e = .join
          ∨ e = .ioError ∨ ∃ c, c ≠ 0 ∧ e = .exit c)
        ∧ (∀ t, e ≠ .taskFailed t) ∧ ∀ jb, e ≠ .jobFailed jb)
    ∧ (∀ (env : String → String → StepEnv) (jsched : String → Nat → Nat)
        (sched : Nat → Nat) (r : Runner) (e : Error),
        (Runner.run env jsched sched r).1 = .error e →
        ((∃ nm, e = .missingDependency nm) ∨ e = .circularDependency ∨ e = .join
          ∨ e = .ioError ∨ ∃ c, c ≠ 0 ∧ e = .exit c)
        ∧ (∀ t, e ≠ .taskFailed t) ∧ ∀ jb, e ≠ .jobFailed jb) := by
  have hforms : ∀ e : Error,
      ((∃ nm, e = .missingDependency nm) ∨ e = .circularDependency ∨ e = .join
        ∨ e = .ioError ∨ ∃ c, c ≠ 0 ∧ e = .exit c) →
      (∀ t, e ≠ .taskFailed t) ∧ ∀ jb, e ≠ .jobFailed jb := by
    intro e h
    rcases h with ⟨nm, rfl⟩ | rfl | rfl | rfl | ⟨c, _, rfl⟩ <;>
      exact ⟨fun t ht => Error.noConfusion ht, fun jb hjb => Error.noConfusion hjb⟩
  refine ⟨?_, ?_, ?_⟩
  · intro N ops sched fuel k pending running finished running' u e hr hu hpan hres
    rw [dagLoop_inflight ops sched fuel k pending running finished running' hr u hu]
    simp [hpan, hres]
  · intro env sched j e h
    have hf := job_run_error_forms env sched j e h
    exact ⟨hf, (hforms e hf).1, (hforms e hf).2⟩
  · intro env jsched sched r e h
    have hf := runner_run_error_forms env jsched sched r e h
    exact ⟨hf, (hforms e hf).1, (hforms e hf).2⟩

/-- The events of the validate-and-insert pass of `Runner::run` are all
mirror insertions. -/
theorem runnerValidateInsert_events_inserts (all : List Job) :
    ∀ l : List Job, ∀ ev ∈ (runnerValidateInsert all l).2, ∃ js, ev = Event.insertJob js := by
  intro l
  induction l with
  | nil => simp [runnerValidateInsert]
  | cons j rest ih =>
    intro ev hev
    unfold runnerValidateInsert at hev
    cases hf : j.depends.find? (fun name => !all.any (fun j2 => j2.name == name)) with
    | some d =>
      rw [hf] at hev
      simp at hev
    | none =>
      rw [hf] at hev
      simp only [List.mem_cons] at hev
      rcases hev with hev | hev
      · exact ⟨jobStatusInit j, hev⟩
      · exact ih ev hev

/-- If some job of `l` declares a dependency naming no job of `all`, the
validate-and-insert pass stops at the first such dependency. -/
theorem runnerValidateInsert_some_of (all : List Job) :
    ∀ l : List Job, (∃ j ∈ l, ∃ d ∈ j.depends, ∀ j' ∈ all, j'.name ≠ d) →
    ∃ d, (runnerValidateInsert all l).1 = some d
      ∧ (∃ j ∈ l, d ∈ j.depends) ∧ ∀ j' ∈ all, j'.name ≠ d := by
  intro l
  induction l with
  | nil => simp
  | cons j rest ih =>
    intro h
    cases hf : j.depends.find? (fun name => !all.any (fun j2 => j2.name == name)) with
    | some d =>
      refine ⟨d, ?_, ⟨j, by simp, List.mem_of_find?_eq_some hf⟩, ?_⟩
      · unfold runnerValidateInsert
        rw [hf]
      · have hp : all.any (fun j2 => j2.name == d) = false := by
          simpa using List.find?_some hf
        intro j' hj' hn
        have hcomp : (j'.name == d) = true := by simp [hn]
        have : all.any (fun j2 => j2.name == d) = true :=
          List.any_eq_true.mpr ⟨j', hj', hcomp⟩
        rw [hp] at this
        exact Bool.noConfusion this
    | none =>
      have hrest : ∃ x ∈ rest, ∃ d ∈ x.depends, ∀ j' ∈ all, j'.name ≠ d := by
        obtain ⟨x, hx, d, hd, hnone⟩ := h
        rcases List.mem_cons.mp hx with rfl | hx
        · exfalso
          have := List.find?_eq_none.mp hf d hd
          simp only [Bool.not_eq_true', Bool.not_eq_false] at this
          obtain ⟨j', hj', hj'd⟩ := List.any_eq_true.mp this
          exact hnone j' hj' (by simpa using hj'd)
        · exact ⟨x, hx, d, hd, hnone⟩
      obtain ⟨d, hd1, ⟨x, hx, hxd⟩, hd3⟩ := ih hrest
      refine ⟨d, ?_, ⟨x, List.mem_cons_of_mem _ hx, hxd⟩, hd3⟩
      unfold runnerValidateInsert
      rw [hf]
      simp [hd1]

/-- If some task of the job declares a dependency naming no task, the
fail-fast validation of `Job::run` finds the first such dependency. -/
theorem firstMissingTaskDep_some_of (tasks : List Task)
    (h : ∃ t ∈ tasks, ∃ d ∈ t.depends, ∀ t' ∈ tasks, t'.name ≠ d) :
    ∃ d, firstMissingTaskDep tasks = some d
      ∧ (∃ t ∈ tasks, d ∈ t.depends) ∧ ∀ t' ∈ tasks, t'.name ≠ d := by
  cases hf : firstMissingTaskDep tasks with
  | none =>
    exfalso
    obtain ⟨t, ht, d, hd, hnone⟩ := h
    unfold firstMissingTaskDep at hf
    have := List.findSome?_eq_none_iff.mp hf t ht
    have := List.find?_eq_none.mp this d hd
    simp only [Bool.not_eq_true', Bool.not_eq_false] at this
    obtain ⟨t', ht', ht'd⟩ := List.any_eq_true.mp this
    exact hnone t' ht' (by simpa using ht'd)
  | some d =>
    refine ⟨d, rfl, ?_, ?_⟩
    · unfold firstMissingTaskDep at hf
      obtain ⟨t, ht, htf⟩ := List.exists_of_findSome?_eq_some hf
      exact ⟨t, ht, List.mem_of_find?_eq_some htf⟩
    · unfold firstMissingTaskDep at hf
      obtain ⟨t, ht, htf⟩ := List.exists_of_findSome?_eq_some hf
      have hp : tasks.any (fun t2 => t2.name == d) = false := by
        simpa using List.find?_some htf
      intro t' ht' hn
      have hcomp : (t'.name == d) = true := by simp [hn]
      have : tasks.any (fun t2 => t2.name == d) = true :=
        List.any_eq_true.mpr ⟨t', ht', hcomp⟩
      rw [hp] at this
      exact Bool.noConfusion this

/-- C4: a dependency naming no node of the collection makes `Job::run`
(resp. `Runner::run`) fail fast with a Missing-Dependency error naming
exactly the offending reference — qualified `<job>/<dep>` for a task,
bare for a job — before any node starts running (the only tracker
operations at runner level are the Pending mirror insertions; none at
job level). -/
theorem run_missing_dependency_fail_fast :
    (∀ (env : String → StepEnv) (sched : Nat → Nat) (j : Job),
      (∃ t ∈ j.tasks, ∃ d ∈ t.depends, ∀ t' ∈ j.tasks, t'.name ≠ d) →
      ∃ d, (∃ t ∈ j.tasks, d ∈ t.depends) ∧ (∀ t' ∈ j.tasks, t'.name ≠ d)
        ∧ Job.run env sched j = (.error (.missingDependency (j.name ++ "/" ++ d)), j, []))
    ∧ (∀ (env : String → String → StepEnv) (jsched : String → Nat → Nat)
        (sched : Nat → Nat) (r : Runner),
      (∃ jb ∈ r.jobs, ∃ d ∈ jb.depends, ∀ j' ∈ r.jobs, j'.name ≠ d) →
      ∃ d evs, (∃ jb ∈ r.jobs, d ∈ jb.depends) ∧ (∀ j' ∈ r.jobs, j'.name ≠ d)
        ∧ Runner.run env jsched sched r = (.error (.missingDependency d), r, evs)
        ∧ ∀ ev ∈ evs, ∃ js, ev = Event.insertJob js) := by
  constructor
  · intro env sched j h
    obtain ⟨d, hf, hd2, hd3⟩ := firstMissingTaskDep_some_of j.tasks h
    refine ⟨d, hd2, hd3, ?_⟩
    unfold Job.run
    rw [hf]
  · intro env jsched sched r h
    obtain ⟨d, hf, hd2, hd3⟩ := runnerValidateInsert_some_of r.jobs r.jobs h
    refine ⟨d, (runnerValidateInsert r.jobs r.jobs).2, hd2, hd3, ?_,
      runnerValidateInsert_events_inserts r.jobs r.jobs⟩
    unfold Runner.run
    rcases hv : runnerValidateInsert r.jobs r.jobs with ⟨v, evs0⟩
    rw [hv] at hf
    simp at hf
    rw [hf]

/-- C10: the replacement of the original collection by the finished set
happens only on the `Ok` path — whenever `Job::run` returns an error the
job (name, dependencies and tasks) is unchanged, and whenever
`Runner::run` returns an error `self.jobs` is unchanged. -/
theorem run_error_leaves_collection_unchanged :
    (∀ (env : String → StepEnv) (sched : Nat → Nat) (j : Job) (e : Error),
      (Job.run env sched j).1 = .error e → (Job.run env sched j).2.1 = j)
    ∧ (∀ (env : String → String → StepEnv) (jsched : String → Nat → Nat)
        (sched : Nat → Nat) (r : Runner) (e : Error),
      (Runner.run env jsched sched r).1 = .error e → (Runner.run env jsched sched r).2.1 = r) := by
  constructor
  · intro env sched j e h
    unfold Job.run at h ⊢
    cases hval : firstMissingTaskDep j.tasks with
    | some d => rfl
    | none =>
      rcases hd : dagLoop (taskOps j.name env) sched (j.tasks.length + 1) 0 j.tasks [] []
        with ⟨res, evs⟩
      cases res with
      | ok finished =>
        rw [hval, hd] at h
        exact Except.noConfusion h
      | error e' => rfl
  · intro env jsched sched r e h
    unfold Runner.run at h ⊢
    cases hv : runnerValidateInsert r.jobs r.jobs with
    | mk v evs0 =>
      cases v with
      | some d => rfl
      | none =>
        rcases hd : dagLoop (jobOps env jsched) sched (r.jobs.length + 1) 0 r.jobs [] []
          with ⟨res, evs⟩
        cases res with
        | ok finished =>
          rw [hv, hd] at h
          exact Except.noConfusion h
        | error e' => rfl

/-- A name matching no key is not found. -/
theorem JobTracker.get_unknown (tr : JobTracker) (name : String)
    (h : ∀ p ∈ tr, p.1 ≠ name) : tr.get name = none := by
  unfold JobTracker.get
  rw [List.find?_eq_none.mpr (fun p hp => by simp [h p hp])]
  rfl

/-- `get` after `insert` returns the inserted record. -/
theorem JobTracker.get_insert_self (tr : JobTracker) (job : JobStatus) :
    (tr.insert job).get job.name = some job := by
  induction tr with
  | nil => simp [JobTracker.insert, JobTracker.get]
  | cons p rest ih =>
    by_cases hp : (p.1 == job.name) = true
    · simp [JobTracker.insert, JobTracker.get, hp]
    · simp only [JobTracker.insert, hp, if_false, Bool.false_eq_true]
      unfold JobTracker.get at ih ⊢
      simp only [List.find?, hp]
      exact ih

/-- `modify` on the entry's own key applies the mutation in place. -/
theorem JobTracker.get_modify_self (tr : JobTracker) (name : String) (f : JobStatus → JobStatus) :
    (tr.modify name f).get name = (tr.get name).map f := by
  induction tr with
  | nil => simp [JobTracker.modify, JobTracker.get]
  | cons p rest ih =>
    by_cases hp : (p.1 == name) = true
    · simp [JobTracker.modify, JobTracker.get, List.find?, hp]
    · simp only [JobTracker.modify, hp, if_false, Bool.false_eq_true]
      unfold JobTracker.get at ih ⊢
      simp only [List.find?, hp]
      exact ih

/-- `modify` on a different key leaves a record unchanged. -/
theorem JobTracker.get_modify_ne (tr : JobTracker) (name name' : String)
    (f : JobStatus → JobStatus) (h : name ≠ name') :
    (tr.modify name' f).get name = tr.get name := by
  induction tr with
  | nil => simp [JobTracker.modify]
  | cons p rest ih =>
    by_cases hp : (p.1 == name') = true
    · have hpn : (p.1 == name) = false := by
        simp only [beq_iff_eq] at hp
        simp [hp, Ne.symm h]
      simp [JobTracker.modify, JobTracker.get, List.find?, hp, hpn]
    · simp only [JobTracker.modify, hp, if_false, Bool.false_eq_true]
      by_cases hpn : (p.1 == name) = true
      · simp [JobTracker.get, List.find?, hpn]
      · unfold JobTracker.get at ih ⊢
        simp only [List.find?, hpn]
        exact ih

/-- `modify` with an unknown key is a no-op. -/
theorem JobTracker.modify_unknown (tr : JobTracker) (name : String)
    (f : JobStatus → JobStatus) (h : tr.get name = none) : tr.modify name f = tr := by
  induction tr with
  | nil => simp [JobTracker.modify]
  | cons p rest ih =>
    unfold JobTracker.get at h ih
    by_cases hp : (p.1 == name) = true
    · simp [List.find?, hp] at h
    · simp only [List.find?, hp] at h
      simp only [JobTracker.modify, hp, if_false, Bool.false_eq_true]
      rw [ih h]

/-- `modify` whose mutation fixes the stored record is a no-op. -/
theorem JobTracker.modify_congr_id (tr : JobTracker) (name : String)
    (f : JobStatus → JobStatus) (v : JobStatus) (h : tr.get name = some v) (hf : f v = v) :
    tr.modify name f = tr := by
  induction tr with
  | nil => simp [JobTracker.modify]
  | cons p rest ih =>
    unfold JobTracker.get at h ih
    by_cases hp : (p.1 == name) = true
    · have hv : p.2 = v := by
        simp [List.find?, hp] at h
        exact h
      unfold JobTracker.modify
      rw [if_pos hp, hv, hf, ← hv]
    · simp only [List.find?, hp] at h
      simp only [JobTracker.modify, hp, if_false, Bool.false_eq_true]
      rw [ih h]

/-- `find?` after a first-match task update, same name (mutations in the
code never change the name). -/
theorem find?_modifyFirstTask_self (tasks : List TaskStatus) (tn : String)
    (f : TaskStatus → TaskStatus) (hf : ∀ t, (f t).name = t.name) :
    (modifyFirstTask tasks tn f).find? (fun t => t.name == tn)
      = (tasks.find? (fun t => t.name == tn)).map f := by
  induction tasks with
  | nil => simp [modifyFirstTask]
  | cons t rest ih =>
    by_cases hp : (t.name == tn) = true
    · simp [modifyFirstTask, List.find?, hp, hf]
    · simp only [modifyFirstTask, hp, if_false, Bool.false_eq_true]
      simp only [List.find?, hp]
      exact ih

/-- `find?` after a first-match task update, different name. -/
theorem find?_modifyFirstTask_ne (tasks : List TaskStatus) (tn tn' : String)
    (f : TaskStatus → TaskStatus) (h : tn ≠ tn') (hf : ∀ t, (f t).name = t.name) :
    (modifyFirstTask tasks tn' f).find? (fun t => t.name == tn)
      = tasks.find? (fun t => t.name == tn) := by
  induction tasks with
  | nil => simp [modifyFirstTask]
  | cons t rest ih =>
    by_cases hp : (t.name == tn') = true
    · have hpn : (t.name == tn) = false := by
        simp only [beq_iff_eq] at hp
        simp [hp, Ne.symm h]
      have hfn : ((f t).name == tn) = false := by
        rw [hf t]
        exact hpn
      simp [modifyFirstTask, List.find?, hp, hpn, hfn]
    · simp only [modifyFirstTask, hp, if_false, Bool.false_eq_true]
      by_cases hpn : (t.name == tn) = true
      · simp [List.find?, hpn]
      · simp only [List.find?, hpn]
        exact ih

/-- A first-match task update with no matching task is a no-op. -/
theorem modifyFirstTask_unknown (tasks : List TaskStatus) (tn : String)
    (f : TaskStatus → TaskStatus) (h : tasks.find? (fun t => t.name == tn) = none) :
    modifyFirstTask tasks tn f = tasks := by
  induction tasks with
  | nil => simp [modifyFirstTask]
  | cons t rest ih =>
    by_cases hp : (t.name == tn) = true
    · simp [List.find?, hp] at h
    · simp only [List.find?, hp] at h
      simp only [modifyFirstTask, hp, if_false, Bool.false_eq_true]
      rw [ih h]

/-- A first-match task update whose mutation fixes the record is a
no-op. -/
theorem modifyFirstTask_congr_id (tasks : List TaskStatus) (tn : String)
    (f : TaskStatus → TaskStatus) (v : TaskStatus)
    (h : tasks.find? (fun t => t.name == tn) = some v) (hf : f v = v) :
    modifyFirstTask tasks tn f = tasks := by
  induction tasks with
  | nil => simp [modifyFirstTask]
  | cons t rest ih =>
    by_cases hp : (t.name == tn) = true
    · have hv : t = v := by
        simp [List.find?, hp] at h
        exact h
      unfold modifyFirstTask
      rw [if_pos hp, hv, hf]
    · simp only [List.find?, hp] at h
      simp only [modifyFirstTask, hp, if_false, Bool.false_eq_true]
      rw [ih h]

/-- `get?` after an in-place step update at the same index. -/
theorem modifyStepAt_get?_self (steps : List StepStatus) (i : Nat)
    (f : StepStatus → StepStatus) :
    (modifyStepAt steps i f).get? i = (steps.get? i).map f := by
  unfold modifyStepAt
  cases h : steps.get? i with
  | none => simpa using h
  | some s =>
    have hi : i < steps.length := (List.get?_eq_some.mp h).choose
    rw [List.get?_set_eq_of_lt (f s) hi]
    rfl

/-- `get?` after an in-place step update at a different index. -/
theorem modifyStepAt_get?_ne (steps : List StepStatus) (i i' : Nat)
    (f : StepStatus → StepStatus) (h : i ≠ i') :
    (modifyStepAt steps i' f).get? i = steps.get? i := by
  unfold modifyStepAt
  cases hs : steps.get? i' with
  | none => rfl
  | some s =>
    exact List.get?_set_ne (f s) steps (Ne.symm h)

/-- An in-place step update at an out-of-range index is a no-op. -/
theorem modifyStepAt_unknown (steps : List StepStatus) (i : Nat)
    (f : StepStatus → StepStatus) (h : steps.get? i = none) :
    modifyStepAt steps i f = steps := by
  unfold modifyStepAt
  rw [h]

/-- Scoped task view, job unknown: not found. -/
theorem TaskTracker.get_job_unknown (jn tn : String) (tr : JobTracker)
    (h : tr.get jn = none) : TaskTracker.get jn tr tn = none := by
  unfold TaskTracker.get
  rw [h]

/-- Scoped task view, task name unknown in the job's record: not
found. -/
theorem TaskTracker.get_task_unknown (jn tn : String) (tr : JobTracker) (js : JobStatus)
    (h : tr.get jn = some js) (h2 : js.tasks.find? (fun task => task.name == tn) = none) :
    TaskTracker.get jn tr tn = none := by
  unfold TaskTracker.get
  rw [h]
  exact h2

/-- Scoped task modify, same task: the mutation is applied in place
(mutations in the code never change the name). -/
theorem TaskTracker.taskGet_modify_self (jn tn : String) (tr : JobTracker)
    (f : TaskStatus → TaskStatus) (hf : ∀ t, (f t).name = t.name) :
    TaskTracker.get jn (TaskTracker.modify jn tr tn f) tn
      = (TaskTracker.get jn tr tn).map f := by
  unfold TaskTracker.get TaskTracker.modify
  rw [JobTracker.get_modify_self]
  cases h : tr.get jn with
  | none => rfl
  | some js => simpa using find?_modifyFirstTask_self js.tasks tn f hf

/-- Scoped task modify with an unknown name is a no-op. -/
theorem TaskTracker.taskModify_unknown (jn tn : String) (tr : JobTracker)
    (f : TaskStatus → TaskStatus) (h : TaskTracker.get jn tr tn = none) :
    TaskTracker.modify jn tr tn f = tr := by
  unfold TaskTracker.get at h
  unfold TaskTracker.modify
  cases hj : tr.get jn with
  | none => exact JobTracker.modify_unknown tr jn _ hj
  | some js =>
    rw [hj] at h
    refine JobTracker.modify_congr_id tr jn _ js hj ?_
    rw [modifyFirstTask_unknown js.tasks tn f h]

/-- Scoped task modify whose mutation fixes the record is a no-op. -/
theorem TaskTracker.taskModify_congr_id (jn tn : String) (tr : JobTracker)
    (f : TaskStatus → TaskStatus) (ts : TaskStatus)
    (h : TaskTracker.get jn tr tn = some ts) (hf : f ts = ts) :
    TaskTracker.modify jn tr tn f = tr := by
  unfold TaskTracker.get at h
  unfold TaskTracker.modify
  cases hj : tr.get jn with
  | none =>
    rw [hj] at h
    exact Option.noConfusion h
  | some js =>
    rw [hj] at h
    refine JobTracker.modify_congr_id tr jn _ js hj ?_
    rw [modifyFirstTask_congr_id js.tasks tn f ts h hf]

/-- Scoped task modify at a different task name (with a name-preserving
mutation) does not change the view of this task. -/
theorem TaskTracker.get_modify_ne_task (jn tn t' : String) (tr : JobTracker)
    (f : TaskStatus → TaskStatus) (hne : tn ≠ t') (hf : ∀ t, (f t).name = t.name) :
    TaskTracker.get jn (TaskTracker.modify jn tr t' f) tn = TaskTracker.get jn tr tn := by
  unfold TaskTracker.modify TaskTracker.get
  rw [JobTracker.get_modify_self]
  cases h : tr.get jn with
  | none => rfl
  | some js => simp [find?_modifyFirstTask_ne js.tasks tn t' f hne hf]

/-- A job-record mutation that keeps the task list does not change the
scoped task view. -/
theorem TaskTracker.taskGet_jobModify_preserved (jn j' tn : String) (tr : JobTracker)
    (g : JobStatus → JobStatus) (hg : ∀ js, (g js).tasks = js.tasks) :
    TaskTracker.get jn (JobTracker.modify tr j' g) tn = TaskTracker.get jn tr tn := by
  unfold TaskTracker.get
  by_cases hj : jn = j'
  · subst hj
    rw [JobTracker.get_modify_self]
    cases h : tr.get jn with
    | none => rfl
    | some js => simp [hg js]
  · rw [JobTracker.get_modify_ne tr jn j' g hj]

/-- Scoped step view, index out of range: not found. -/
theorem StepTracker.get_index_unknown (jn tn : String) (tr : JobTracker) (i : Nat)
    (ts : TaskStatus) (h : TaskTracker.get jn tr tn = some ts) (h2 : ts.steps.length ≤ i) :
    StepTracker.get jn tn tr i = none := by
  unfold StepTracker.get
  rw [h]
  exact List.get?_eq_none.mpr h2

/-- Scoped step modify, same coordinates: the mutation is applied in
place. -/
theorem StepTracker.stepGet_modify_self (jn tn : String) (tr : JobTracker) (i : Nat)
    (f : StepStatus → StepStatus) :
    StepTracker.get jn tn (StepTracker.modify jn tn tr i f) i
      = (StepTracker.get jn tn tr i).map f := by
  unfold StepTracker.get StepTracker.modify
  rw [TaskTracker.taskGet_modify_self jn tn tr
    (fun task => { task with steps := modifyStepAt task.steps i f }) (fun t => rfl)]
  cases h : TaskTracker.get jn tr tn with
  | none => rfl
  | some ts => simpa using modifyStepAt_get?_self ts.steps i f

/-- Scoped step modify with an out-of-range index (or unknown names) is
a no-op. -/
theorem StepTracker.stepModify_unknown (jn tn : String) (tr : JobTracker) (i : Nat)
    (f : StepStatus → StepStatus) (h : StepTracker.get jn tn tr i = none) :
    StepTracker.modify jn tn tr i f = tr := by
  unfold StepTracker.get at h
  unfold StepTracker.modify
  cases ht : TaskTracker.get jn tr tn with
  | none => exact TaskTracker.taskModify_unknown jn tn tr _ ht
  | some ts =>
    rw [ht] at h
    refine TaskTracker.taskModify_congr_id jn tn tr _ ts ht ?_
    rw [modifyStepAt_unknown ts.steps i f h]

/-- A task-record mutation that keeps name and steps does not change the
scoped step view. -/
theorem StepTracker.get_taskModify_preserved (jn tn j' t' : String) (tr : JobTracker) (i : Nat)
    (f : TaskStatus → TaskStatus) (hf : ∀ t, (f t).name = t.name ∧ (f t).steps = t.steps) :
    StepTracker.get jn tn (TaskTracker.modify j' tr t' f) i = StepTracker.get jn tn tr i := by
  unfold StepTracker.get
  by_cases hj : jn = j'
  · subst hj
    by_cases ht : tn = t'
    · subst ht
      rw [TaskTracker.taskGet_modify_self jn tn tr f (fun t => (hf t).1)]
      cases h : TaskTracker.get jn tr tn with
      | none => rfl
      | some ts => simp [(hf ts).2]
    · rw [TaskTracker.get_modify_ne_task jn tn t' tr f ht (fun t => (hf t).1)]
  · unfold TaskTracker.modify TaskTracker.get
    rw [JobTracker.get_modify_ne tr jn j' _ hj]

/-- A job-record mutation that keeps the task list does not change the
scoped step view. -/
theorem StepTracker.stepGet_jobModify_preserved (jn tn j' : String) (tr : JobTracker) (i : Nat)
    (g : JobStatus → JobStatus) (hg : ∀ js, (g js).tasks = js.tasks) :
    StepTracker.get jn tn (JobTracker.modify tr j' g) i = StepTracker.get jn tn tr i := by
  unfold StepTracker.get
  rw [TaskTracker.taskGet_jobModify_preserved jn j' tn tr g hg]

/-- A step modify at different coordinates does not change the scoped
step view. -/
theorem StepTracker.get_modify_preserved (jn tn j' t' : String) (tr : JobTracker) (i i' : Nat)
    (f : StepStatus → StepStatus) (hne : ¬(jn = j' ∧ tn = t' ∧ i = i')) :
    StepTracker.get jn tn (StepTracker.modify j' t' tr i' f) i = StepTracker.get jn tn tr i := by
  unfold StepTracker.modify
  by_cases hj : jn = j'
  · subst hj
    by_cases ht : tn = t'
    · subst ht
      have hi : i ≠ i' := fun hii => hne ⟨rfl, rfl, hii⟩
      unfold StepTracker.get
      rw [TaskTracker.taskGet_modify_self jn tn tr
        (fun task => { task with steps := modifyStepAt task.steps i' f }) (fun t => rfl)]
      cases h : TaskTracker.get jn tr tn with
      | none => rfl
      | some ts => simpa using modifyStepAt_get?_ne ts.steps i i' f hi
    · unfold StepTracker.get
      rw [TaskTracker.get_modify_ne_task jn tn t' tr
        (fun task => { task with steps := modifyStepAt task.steps i' f }) ht (fun t => rfl)]
  · unfold StepTracker.get TaskTracker.modify TaskTracker.get
    rw [JobTracker.get_modify_ne tr jn j' _ hj]

/-- A tracker operation that is neither an insertion nor a step update
or output line at the given coordinates leaves that step's record
unchanged. -/
theorem stepGet_applyEvent_preserved (jn tn : String) (i : Nat) (tr : JobTracker) (ev : Event)
    (h1 : ∀ s, ev ≠ Event.setStep jn tn i s)
    (h2 : ∀ ln, ev ≠ Event.logLine jn tn i ln)
    (h3 : ∀ js, ev ≠ Event.insertJob js) :
    StepTracker.get jn tn (applyEvent tr ev) i = StepTracker.get jn tn tr i := by
  cases ev with
  | insertJob js => exact absurd rfl (h3 js)
  | setJob j' s =>
    exact StepTracker.stepGet_jobModify_preserved jn tn j' tr i _ (fun js => rfl)
  | setTask j' t' s =>
    exact StepTracker.get_taskModify_preserved jn tn j' t' tr i _ (fun t => ⟨rfl, rfl⟩)
  | setStep j' t' i' s =>
    refine StepTracker.get_modify_preserved jn tn j' t' tr i i' _ ?_
    rintro ⟨rfl, rfl, rfl⟩
    exact h1 s rfl
  | logLine j' t' i' ln =>
    unfold applyEvent StepTracker.log
    refine StepTracker.get_modify_preserved jn tn j' t' tr i i' _ ?_
    rintro ⟨rfl, rfl, rfl⟩
    exact h2 ln rfl

/-- List version of `stepGet_applyEvent_preserved`. -/
theorem stepGet_applyEvents_preserved (jn tn : String) (i : Nat) :
    ∀ (evs : List Event) (tr : JobTracker),
      (∀ ev ∈ evs, (∀ s, ev ≠ Event.setStep jn tn i s)
        ∧ (∀ ln, ev ≠ Event.logLine jn tn i ln) ∧ ∀ js, ev ≠ Event.insertJob js) →
      StepTracker.get jn tn (applyEvents tr evs) i = StepTracker.get jn tn tr i := by
  intro evs
  induction evs with
  | nil => intro tr _; rfl
  | cons ev rest ih =>
    intro tr h
    have h0 := h ev (by simp)
    unfold applyEvents
    rw [List.foldl_cons]
    rw [show List.foldl applyEvent (applyEvent tr ev) rest
      = applyEvents (applyEvent tr ev) rest from rfl]
    rw [ih (applyEvent tr ev) (fun e he => h e (List.mem_cons_of_mem _ he))]
    exact stepGet_applyEvent_preserved jn tn i tr ev h0.1 h0.2.1 h0.2.2

/-- C8: the tracker contract.  `get` with an unknown job name — or, through
the scoped task and step views, an unknown task name or an out-of-range
step index — returns not-found; `get` after `insert` returns the inserted
record; `modify` with an unknown key at any of the three scopes is a no-op
(never an error); `modify` with a known key applies the caller-supplied
mutation to the record read back by `get` (at the task scope, for the
name-preserving mutations the program uses). -/
theorem tracker_get_modify_contract :
    (∀ (tr : JobTracker) (jn : String),
        (∀ p ∈ tr, p.1 ≠ jn) → tr.get jn = none)
  ∧ (∀ (tr : JobTracker) (jn tn : String),
        tr.get jn = none → TaskTracker.get jn tr tn = none)
  ∧ (∀ (tr : JobTracker) (jn tn : String) (js : JobStatus),
        tr.get jn = some js → js.tasks.find? (fun task => task.name == tn) = none →
        TaskTracker.get jn tr tn = none)
  ∧ (∀ (tr : JobTracker) (jn tn : String) (i : Nat) (ts : TaskStatus),
        TaskTracker.get jn tr tn = some ts → ts.steps.length ≤ i →
        StepTracker.get jn tn tr i = none)
  ∧ (∀ (tr : JobTracker) (job : JobStatus),
        (tr.insert job).get job.name = some job)
  ∧ (∀ (tr : JobTracker) (jn : String) (f : JobStatus → JobStatus),
        (tr.modify jn f).get jn = (tr.get jn).map f)
  ∧ (∀ (tr : JobTracker) (jn : String) (f : JobStatus → JobStatus),
        tr.get jn = none → tr.modify jn f = tr)
  ∧ (∀ (tr : JobTracker) (jn tn : String) (f : TaskStatus → TaskStatus),
        (∀ t, (f t).name = t.name) →
        TaskTracker.get jn (TaskTracker.modify jn tr tn f) tn
          = (TaskTracker.get jn tr tn).map f)
  ∧ (∀ (tr : JobTracker) (jn tn : String) (f : TaskStatus → TaskStatus),
        TaskTracker.get jn tr tn = none → TaskTracker.modify jn tr tn f = tr)
  ∧ (∀ (tr : JobTracker) (jn tn : String) (i : Nat) (f : StepStatus → StepStatus),
        StepTracker.get jn tn (StepTracker.modify jn tn tr i f) i
          = (StepTracker.get jn tn tr i).map f)
  ∧ (∀ (tr : JobTracker) (jn tn : String) (i : Nat) (f : StepStatus → StepStatus),
        StepTracker.get jn tn tr i = none → StepTracker.modify jn tn tr i f = tr) := by
  refine ⟨?_, ?_, ?_, ?_, ?_, ?_, ?_, ?_, ?_, ?_, ?_⟩
  · exact fun tr jn h => JobTracker.get_unknown tr jn h
  · exact fun tr jn tn h => TaskTracker.get_job_unknown jn tn tr h
  · exact fun tr jn tn js h h2 => TaskTracker.get_task_unknown jn tn tr js h h2
  · exact fun tr jn tn i ts h h2 => StepTracker.get_index_unknown jn tn tr i ts h h2
  · exact fun tr job => JobTracker.get_insert_self tr job
  · exact fun tr jn f => JobTracker.get_modify_self tr jn f
  · exact fun tr jn f h => JobTracker.modify_unknown tr jn f h
  · exact fun tr jn tn f hf => TaskTracker.taskGet_modify_self jn tn tr f hf
  · exact fun tr jn tn f h => TaskTracker.taskModify_unknown jn tn tr f h
  · exact fun tr jn tn i f => StepTracker.stepGet_modify_self jn tn tr i f
  · exact fun tr jn tn i f h => StepTracker.stepModify_unknown jn tn tr i f h

/-- The tracker contract exercised on a concrete one-job tracker state:
unknown names miss, a known step index past the end misses, and the
unknown-key modifies are no-ops. -/
theorem tracker_get_modify_contract_witness :
    JobTracker.get sampleTracker "zzz" = none
  ∧ TaskTracker.get "j" sampleTracker "zzz" = none
  ∧ StepTracker.get "j" "a" sampleTracker 1 = none
  ∧ JobTracker.modify sampleTracker "zzz" (fun js => { js with status := Status.failed })
      = sampleTracker
  ∧ TaskTracker.modify "j" sampleTracker "zzz" (fun t => { t with status := Status.failed })
      = sampleTracker
  ∧ StepTracker.modify "j" "a" sampleTracker 1 (fun s => { s with status := Status.failed })
      = sampleTracker := by
  refine ⟨?_, ?_, ?_, ?_, ?_, ?_⟩
  · exact tracker_get_modify_contract.1 sampleTracker "zzz" (by decide)
  · exact tracker_get_modify_contract.2.2.1 sampleTracker "j" "zzz"
      sampleJobRecord (by rfl) (by rfl)
  · exact tracker_get_modify_contract.2.2.2.1 sampleTracker "j" "a" 1
      sampleTaskRecord (by rfl) (by decide)
  · exact tracker_get_modify_contract.2.2.2.2.2.2.1 sampleTracker "zzz" _ (by rfl)
  · exact tracker_get_modify_contract.2.2.2.2.2.2.2.2.1 sampleTracker "j" "zzz" _ (by rfl)
  · exact tracker_get_modify_contract.2.2.2.2.2.2.2.2.2.2 sampleTracker "j" "a" 1 _ (by rfl)

/-- Every tracker operation of `Step::run` carries exactly the step's own
index. -/
theorem step_run_events_index (jn tn : String) (i : Nat) (env : StepEnv) (s : Step) :
    ∀ ev ∈ (Step.run jn tn i env s).2,
      (∃ st, ev = Event.setStep jn tn i st) ∨ ∃ ln, ev = Event.logLine jn tn i ln := by
  rcases s with ⟨args⟩
  intro ev hev
  cases hsp : Step.spawnArgs args with
  | none =>
    simp only [Step.run, hsp] at hev
    simp at hev
    exact Or.inl ⟨.running, hev⟩
  | some p =>
    cases ho : env.out i with
    | spawnError =>
      simp only [Step.run, hsp, ho] at hev
      simp at hev
      exact Or.inl ⟨.running, hev⟩
    | waitError =>
      simp only [Step.run, hsp, ho] at hev
      simp at hev
      rcases hev with hev | hev
      · exact Or.inl ⟨.running, hev⟩
      · obtain ⟨ln, _, hln⟩ := hev
        exact Or.inr ⟨ln, hln.symm⟩
    | exit c =>
      simp only [Step.run, hsp, ho] at hev
      by_cases hc : (c == 0) = true <;> simp [hc] at hev <;>
        rcases hev with hev | hev | hev
      · exact Or.inl ⟨.running, hev⟩
      · obtain ⟨ln, _, hln⟩ := hev
        exact Or.inr ⟨ln, hln.symm⟩
      · exact Or.inl ⟨.finished, hev⟩
      · exact Or.inl ⟨.running, hev⟩
      · obtain ⟨ln, _, hln⟩ := hev
        exact Or.inr ⟨ln, hln.symm⟩
      · exact Or.inl ⟨.failed, hev⟩

/-- Every operation in a declared-order trace carries a step index below
the end of the traced list. -/
theorem stepsTraceFrom_events_index (jn tn : String) (env : StepEnv) :
    ∀ (steps : List Step) (i : Nat), ∀ ev ∈ stepsTraceFrom jn tn env i steps,
      ∃ idx, idx < i + steps.length ∧
        ((∃ st, ev = Event.setStep jn tn idx st) ∨ ∃ ln, ev = Event.logLine jn tn idx ln) := by
  intro steps
  induction steps with
  | nil => simp [stepsTraceFrom]
  | cons s rest ih =>
    intro i ev hev
    rcases List.mem_append.mp (by simpa [stepsTraceFrom] using hev) with hev | hev
    · exact ⟨i, by simp, step_run_events_index jn tn i env s ev hev⟩
    · obtain ⟨idx, hlt, hsh⟩ := ih (i + 1) ev hev
      refine ⟨idx, by simp at hlt ⊢; omega, hsh⟩

/-- When every step succeeds, the step loop of `Task::run` returns Ok and
its trace is the concatenation of the per-step traces in declared
order. -/
theorem runSteps_all_ok (jn tn : String) (env : StepEnv) :
    ∀ (steps : List Step) (i : Nat),
      (∀ k (hk : k < steps.length),
        (Step.run jn tn (i + k) env (steps.get ⟨k, hk⟩)).1 = RunResult.ok) →
      Task.runSteps jn tn env i steps = (RunResult.ok, stepsTraceFrom jn tn env i steps) := by
  intro steps
  induction steps with
  | nil => intro i _; rfl
  | cons s rest ih =>
    intro i h
    have h0 : (Step.run jn tn i env s).1 = RunResult.ok := h 0 (Nat.succ_pos _)
    rcases hs : Step.run jn tn i env s with ⟨r, evs⟩
    rw [hs] at h0
    have hr : r = RunResult.ok := h0
    subst hr
    have hrec := ih (i + 1) (fun k hk => by
      have hx := h (k + 1) (Nat.succ_lt_succ hk)
      rw [show i + (k + 1) = i + 1 + k from by omega] at hx
      exact hx)
    simp [Task.runSteps, hs, hrec, stepsTraceFrom]

/-- When the steps before `k` succeed and step `k` fails, the step loop
of `Task::run` stops at `k`: it returns step `k`'s error and its trace is
the declared-order traces up to `k` followed by step `k`'s trace — the
later steps contribute nothing. -/
theorem runSteps_first_err (jn tn : String) (env : StepEnv) :
    ∀ (steps : List Step) (i k : Nat) (hk : k < steps.length) (e : Error),
      (∀ m (hm : m < k),
        (Step.run jn tn (i + m) env (steps.get ⟨m, Nat.lt_trans hm hk⟩)).1 = RunResult.ok) →
      (Step.run jn tn (i + k) env (steps.get ⟨k, hk⟩)).1 = RunResult.err e →
      Task.runSteps jn tn env i steps
        = (RunResult.err e, stepsTraceFrom jn tn env i (steps.take k)
            ++ (Step.run jn tn (i + k) env (steps.get ⟨k, hk⟩)).2) := by
  intro steps
  induction steps with
  | nil =>
    intro i k hk
    exact absurd hk (by simp)
  | cons s rest ih =>
    intro i k hk e hok herr
    cases k with
    | zero =>
      have herr' : (Step.run jn tn i env s).1 = RunResult.err e := herr
      rcases hs : Step.run jn tn i env s with ⟨r, evs⟩
      rw [hs] at herr'
      have hr : r = RunResult.err e := herr'
      subst hr
      simp [Task.runSteps, hs, stepsTraceFrom]
    | succ m =>
      have h0 : (Step.run jn tn i env s).1 = RunResult.ok := hok 0 (Nat.succ_pos _)
      rcases hs : Step.run jn tn i env s with ⟨r, evs⟩
      rw [hs] at h0
      have hr : r = RunResult.ok := h0
      subst hr
      have hkr : m < rest.length := Nat.lt_of_succ_lt_succ hk
      have hok' : ∀ m' (hm' : m' < m),
          (Step.run jn tn (i + 1 + m') env (rest.get ⟨m', Nat.lt_trans hm' hkr⟩)).1
            = RunResult.ok := by
        intro m' hm'
        have hx := hok (m' + 1) (Nat.succ_lt_succ hm')
        rw [show i + (m' + 1) = i + 1 + m' from by omega] at hx
        exact hx
      have herr' : (Step.run jn tn (i + 1 + m) env (rest.get ⟨m, hkr⟩)).1
          = RunResult.err e := by
        have hx : (Step.run jn tn (i + (m + 1)) env (rest.get ⟨m, hkr⟩)).1
            = RunResult.err e := herr
        rw [show i + (m + 1) = i + 1 + m from by omega] at hx
        exact hx
      have hrec := ih (i + 1) m hkr e hok' herr'
      have hidx : (Step.run jn tn (i + (m + 1)) env (rest.get ⟨m, hkr⟩)).2
          = (Step.run jn tn (i + 1 + m) env (rest.get ⟨m, hkr⟩)).2 := by
        rw [show i + (m + 1) = i + 1 + m from by omega]
      simp only [Task.runSteps, hs, hrec]
      simp [stepsTraceFrom, hs, hidx]
      rw [show i + (m + 1) = i + 1 + m from by omega]

/-- C5: `Task::run` runs a task's steps strictly in declared order with
no concurrency among them.  A task with zero steps returns Ok having run
nothing; when every step succeeds the trace is the per-step traces
concatenated in declared order; and the first failing step ends the task
with that step's error — later steps are never run, so any step record
past the failing index (in particular its Pending status) is left exactly
as it was. -/
theorem task_run_sequential_first_failure :
    (∀ (jn nm : String) (deps : List String) (env : StepEnv),
        Task.run jn env { name := nm, depends := deps, steps := [] } = (RunResult.ok, []))
  ∧ (∀ (jn : String) (env : StepEnv) (t : Task),
        (∀ k (hk : k < t.steps.length),
          (Step.run jn t.name k env (t.steps.get ⟨k, hk⟩)).1 = RunResult.ok) →
        Task.run jn env t = (RunResult.ok, stepsTraceFrom jn t.name env 0 t.steps))
  ∧ (∀ (jn : String) (env : StepEnv) (t : Task) (k : Nat) (hk : k < t.steps.length) (e : Error),
        (∀ m (hm : m < k),
          (Step.run jn t.name m env (t.steps.get ⟨m, Nat.lt_trans hm hk⟩)).1 = RunResult.ok) →
        (Step.run jn t.name k env (t.steps.get ⟨k, hk⟩)).1 = RunResult.err e →
        Task.run jn env t
            = (RunResult.err e, stepsTraceFrom jn t.name env 0 (t.steps.take k)
                ++ (Step.run jn t.name k env (t.steps.get ⟨k, hk⟩)).2)
          ∧ ∀ (tr : JobTracker) (j : Nat), k < j →
              StepTracker.get jn t.name (applyEvents tr (Task.run jn env t).2) j
                = StepTracker.get jn t.name tr j) := by
  refine ⟨fun jn nm deps env => rfl, ?_, ?_⟩
  · intro jn env t h
    have hall := runSteps_all_ok jn t.name env t.steps 0 (fun k hk => by
      rw [Nat.zero_add]
      exact h k hk)
    exact hall
  · intro jn env t k hk e hok herr
    have htrace := runSteps_first_err jn t.name env t.steps 0 k hk e
      (fun m hm => by
        rw [Nat.zero_add]
        exact hok m hm)
      (by
        rw [Nat.zero_add]
        exact herr)
    rw [Nat.zero_add] at htrace
    have htr : Task.run jn env t
        = (RunResult.err e, stepsTraceFrom jn t.name env 0 (t.steps.take k)
            ++ (Step.run jn t.name k env (t.steps.get ⟨k, hk⟩)).2) := htrace
    refine ⟨htr, ?_⟩
    intro tr j hj
    have h2 : (Task.run jn env t).2 = stepsTraceFrom jn t.name env 0 (t.steps.take k)
        ++ (Step.run jn t.name k env (t.steps.get ⟨k, hk⟩)).2 := by rw [htr]
    rw [h2]
    refine stepGet_applyEvents_preserved jn t.name j _ tr ?_
    intro ev hev
    rcases List.mem_append.mp hev with hev | hev
    · obtain ⟨idx, hidx, hsh⟩ := stepsTraceFrom_events_index jn t.name env (t.steps.take k) 0 ev hev
      have hidxj : idx ≠ j := by
        have hlen : (t.steps.take k).length = k := by
          rw [List.length_take]
          omega
        rw [hlen] at hidx
        omega
      refine ⟨fun s' hc => ?_, fun ln' hc => ?_, fun js hc => ?_⟩ <;>
        rcases hsh with ⟨st, rfl⟩ | ⟨ln, rfl⟩
      · simp only [Event.setStep.injEq] at hc
        exact hidxj hc.2.2.1
      · exact Event.noConfusion hc
      · exact Event.noConfusion hc
      · simp only [Event.logLine.injEq] at hc
        exact hidxj hc.2.2.1
      · exact Event.noConfusion hc
      · exact Event.noConfusion hc
    · have hkj : k ≠ j := by omega
      rcases step_run_events_index jn t.name k env _ ev hev with ⟨st, rfl⟩ | ⟨ln, rfl⟩
      · refine ⟨fun s' hc => ?_, fun ln' hc => Event.noConfusion hc,
          fun js hc => Event.noConfusion hc⟩
        simp only [Event.setStep.injEq] at hc
        exact hkj hc.2.2.1
      · refine ⟨fun s' hc => Event.noConfusion hc, fun ln' hc => ?_,
          fun js hc => Event.noConfusion hc⟩
        simp only [Event.logLine.injEq] at hc
        exact hkj hc.2.2.1

/-- The sequential-run contract on concrete inputs: an empty task
returns Ok with no trace; on `taskThreeSteps` under `envFailSnd` the run
fails with exit code 1 and replaying its trace never touches step 2's
record. -/
theorem task_run_sequential_first_failure_witness :
    Task.run "j" envFailSnd { name := "t", depends := [], steps := [] } = (RunResult.ok, [])
  ∧ (Task.run "j" envFailSnd taskThreeSteps).1 = RunResult.err (Error.exit 1)
  ∧ StepTracker.get "j" "t" (applyEvents sampleTracker (Task.run "j" envFailSnd taskThreeSteps).2) 2
      = StepTracker.get "j" "t" sampleTracker 2 := by
  have h3 := task_run_sequential_first_failure.2.2 "j" envFailSnd taskThreeSteps 1 (by decide)
    (Error.exit 1)
    (fun m hm => by
      have hm0 : m = 0 := by omega
      subst hm0
      rfl)
    (by rfl)
  refine ⟨task_run_sequential_first_failure.1 "j" "t" [] envFailSnd, ?_, ?_⟩
  · rw [h3.1]
  · exact h3.2 sampleTracker 2 (by decide)

/-- Replaying one step-status update on a tracker that holds the step's
record updates exactly its status field. -/
theorem stepGet_applySetStep (jn tn : String) (i : Nat) (tr : JobTracker)
    (s : StepStatus) (st : Status) (h : StepTracker.get jn tn tr i = some s) :
    StepTracker.get jn tn (applyEvent tr (Event.setStep jn tn i st)) i
      = some { s with status := st } := by
  show StepTracker.get jn tn
    (StepTracker.modify jn tn tr i (fun step => { step with status := st })) i = _
  rw [StepTracker.stepGet_modify_self, h]
  rfl

/-- Replaying a list of output lines on a tracker that holds the step's
record appends them to its output field. -/
theorem stepGet_applyLogs (jn tn : String) (i : Nat) :
    ∀ (lines : List String) (tr : JobTracker) (s : StepStatus),
      StepTracker.get jn tn tr i = some s →
      StepTracker.get jn tn (applyEvents tr (lines.map (Event.logLine jn tn i))) i
        = some { s with output := s.output ++ lines } := by
  intro lines
  induction lines with
  | nil =>
    intro tr s h
    simpa using h
  | cons ln rest ih =>
    intro tr s h
    have h1 : StepTracker.get jn tn (applyEvent tr (Event.logLine jn tn i ln)) i
        = some { s with output := s.output ++ [ln] } := by
      show StepTracker.get jn tn (StepTracker.log jn tn tr i ln) i = _
      unfold StepTracker.log
      rw [StepTracker.stepGet_modify_self, h]
      rfl
    have h2 := ih (applyEvent tr (Event.logLine jn tn i ln))
      { s with output := s.output ++ [ln] } h1
    have h3 : applyEvents tr ((ln :: rest).map (Event.logLine jn tn i))
        = applyEvents (applyEvent tr (Event.logLine jn tn i ln))
            (rest.map (Event.logLine jn tn i)) := rfl
    rw [h3, h2]
    simp

/-- C6: the exit path of `Step::run`.  When the process runs to
completion with exit code `c`, the step returns Ok exactly when `c` is
zero — recording Finished — and otherwise returns the Exit-Status error
carrying `c` and records Failed; replaying the trace on any tracker
holding the step's record shows the recorded status and the relayed
output.  A spawn failure or a wait failure instead yields the process
(I/O) error, and the replayed status stays Running: neither Finished nor
Failed is recorded on those paths. -/
theorem step_run_exit_status (jn tn : String) (i : Nat) (env : StepEnv)
    (args : List String) (tr : JobTracker) (s : StepStatus)
    (hrec : StepTracker.get jn tn tr i = some s) :
    (∀ c, env.out i = ProcOutcome.exit c → args ≠ [] →
      Step.run jn tn i env (.command args)
          = ((if c = 0 then RunResult.ok else RunResult.err (Error.exit c)),
             Event.setStep jn tn i .running
               :: (env.lines i).map (Event.logLine jn tn i)
               ++ [Event.setStep jn tn i (if c = 0 then Status.finished else Status.failed)])
        ∧ StepTracker.get jn tn
            (applyEvents tr (Step.run jn tn i env (.command args)).2) i
          = some { s with status := if c = 0 then Status.finished else Status.failed,
                          output := s.output ++ env.lines i })
  ∧ (env.out i = ProcOutcome.spawnError → args ≠ [] →
      Step.run jn tn i env (.command args)
          = (RunResult.err Error.ioError, [Event.setStep jn tn i .running])
        ∧ StepTracker.get jn tn
            (applyEvents tr (Step.run jn tn i env (.command args)).2) i
          = some { s with status := Status.running })
  ∧ (env.out i = ProcOutcome.waitError → args ≠ [] →
      Step.run jn tn i env (.command args)
          = (RunResult.err Error.ioError,
             Event.setStep jn tn i .running :: (env.lines i).map (Event.logLine jn tn i))
        ∧ StepTracker.get jn tn
            (applyEvents tr (Step.run jn tn i env (.command args)).2) i
          = some { s with status := Status.running, output := s.output ++ env.lines i }) := by
  have hsp : ∀ (hne : args ≠ []), ∃ p, Step.spawnArgs args = some p := by
    intro hne
    cases args with
    | nil => exact absurd rfl hne
    | cons a rest => exact ⟨(a, rest), rfl⟩
  have hrun : StepTracker.get jn tn (applyEvent tr (Event.setStep jn tn i .running)) i
      = some { s with status := Status.running } :=
    stepGet_applySetStep jn tn i tr s .running hrec
  refine ⟨?_, ?_, ?_⟩
  · intro c hc hne
    obtain ⟨p, hp⟩ := hsp hne
    have htrace : Step.run jn tn i env (.command args)
        = ((if c = 0 then RunResult.ok else RunResult.err (Error.exit c)),
           Event.setStep jn tn i .running
             :: (env.lines i).map (Event.logLine jn tn i)
             ++ [Event.setStep jn tn i (if c = 0 then Status.finished else Status.failed)]) := by
      by_cases hc0 : c = 0 <;>
        simp [Step.run, hp, hc, hc0]
    refine ⟨htrace, ?_⟩
    rw [htrace]
    have h1 : applyEvents tr
        (Event.setStep jn tn i .running
          :: (env.lines i).map (Event.logLine jn tn i)
          ++ [Event.setStep jn tn i (if c = 0 then Status.finished else Status.failed)])
        = applyEvent
            (applyEvents (applyEvent tr (Event.setStep jn tn i .running))
              ((env.lines i).map (Event.logLine jn tn i)))
            (Event.setStep jn tn i (if c = 0 then Status.finished else Status.failed)) := by
      simp [applyEvents, List.foldl_append]
    rw [h1]
    have h2 := stepGet_applyLogs jn tn i (env.lines i)
      (applyEvent tr (Event.setStep jn tn i .running)) _ hrun
    have h3 := stepGet_applySetStep jn tn i _ _
      (if c = 0 then Status.finished else Status.failed) h2
    rw [h3]
  · intro hc hne
    obtain ⟨p, hp⟩ := hsp hne
    have htrace : Step.run jn tn i env (.command args)
        = (RunResult.err Error.ioError, [Event.setStep jn tn i .running]) := by
      simp [Step.run, hp, hc]
    refine ⟨htrace, ?_⟩
    rw [htrace]
    exact hrun
  · intro hc hne
    obtain ⟨p, hp⟩ := hsp hne
    have htrace : Step.run jn tn i env (.command args)
        = (RunResult.err Error.ioError,
           Event.setStep jn tn i .running :: (env.lines i).map (Event.logLine jn tn i)) := by
      simp [Step.run, hp, hc]
    refine ⟨htrace, ?_⟩
    rw [htrace]
    have h1 : applyEvents tr
        (Event.setStep jn tn i .running :: (env.lines i).map (Event.logLine jn tn i))
        = applyEvents (applyEvent tr (Event.setStep jn tn i .running))
            ((env.lines i).map (Event.logLine jn tn i)) := rfl
    rw [h1]
    exact stepGet_applyLogs jn tn i (env.lines i) _ _ hrun

/-- The exit path on a concrete input: a process exiting 2 with one
output line makes the step fail with exit status 2, and the replayed
record of step (`j`, `a`, 0) is marked Failed with the line appended. -/
theorem step_run_exit_status_witness :
    Step.run "j" "a" 0 envExitTwo (.command ["x"])
        = (RunResult.err (Error.exit 2),
           Event.setStep "j" "a" 0 .running
             :: [Event.logLine "j" "a" 0 "boom", Event.setStep "j" "a" 0 .failed])
      ∧ StepTracker.get "j" "a"
          (applyEvents sampleTracker (Step.run "j" "a" 0 envExitTwo (.command ["x"])).2) 0
        = some { args := ["true"], output := ["boom"], status := Status.failed } := by
  have h := (step_run_exit_status "j" "a" 0 envExitTwo ["x"] sampleTracker
    { args := ["true"], output := [], status := Status.pending } (by rfl)).1 2 rfl
    (by decide)
  refine ⟨?_, ?_⟩
  · rw [h.1]
    rfl
  · rw [h.2]
    decide

/-- C9: with a non-empty `args` the accesses `&args[0]` and `&args[1..]`
of `Step::run` are in bounds — the extracted command line is the head and
tail of `args` — and the run never takes the panic path. -/
theorem step_run_args_indexing_safe (jn tn : String) (i : Nat) (env : StepEnv)
    (args : List String) (h : args ≠ []) :
    (∃ exe rest, Step.spawnArgs args = some (exe, rest) ∧ args = exe :: rest)
      ∧ (Step.run jn tn i env (.command args)).1 ≠ RunResult.panicked := by
  cases args with
  | nil => exact absurd rfl h
  | cons a rest =>
    refine ⟨⟨a, rest, rfl, rfl⟩, ?_⟩
    cases ho : env.out i with
    | spawnError => simp [Step.run, Step.spawnArgs, ho]
    | waitError => simp [Step.run, Step.spawnArgs, ho]
    | exit c =>
      by_cases hc : (c == 0) = true <;> simp [Step.run, Step.spawnArgs, ho, hc]

/-- The argument-indexing contract on a concrete two-element command
line. -/
theorem step_run_args_indexing_safe_witness :
    (["echo", "hi"] : List String) ≠ []
  ∧ ((∃ exe rest, Step.spawnArgs ["echo", "hi"] = some (exe, rest)
        ∧ ["echo", "hi"] = exe :: rest)
      ∧ (Step.run "j" "a" 0 envAllOk (.command ["echo", "hi"])).1 ≠ RunResult.panicked) :=
  ⟨by decide, step_run_args_indexing_safe "j" "a" 0 envAllOk ["echo", "hi"] (by decide)⟩

/-- C7 is false of the code: `Job::run` spawns a ready task's unit
(lib.rs 101-116) and only afterwards marks the task Running (lib.rs 117),
so the spawned body races the Running mark.  For a task with no steps the
body can finish first, and then the statuses read back through the
tracker are Pending, Finished, Running — the sequence regresses, and
Finished is observed without Running ever preceding it. -/
theorem task_status_monotonicity_violated :
    ∃ evs ∈ markInterleavings ((taskOps "j" (fun _ => envAllOk)).runningMark zeroTask)
        (taskUnit "j" (fun _ => envAllOk) zeroTask).events,
      regresses (observedTaskStatuses "j" "z" trackerZ evs) = true := by
  refine ⟨[Event.setTask "j" "z" Status.finished, Event.setTask "j" "z" Status.running],
    ?_, ?_⟩
  · decide
  · decide

/-- The acyclic-success contract on concrete inputs: the two-task job
`jobAB` and the two-job runner `runnerAB`, all steps exiting 0. -/
theorem run_acyclic_success_topological_witness :
    (∃ g evs, Job.run (fun _ => envAllOk) (fun _ => 0) jobAB
          = (.ok (), { jobAB with tasks := g }, evs)
        ∧ List.Perm (g.map Task.name) (jobAB.tasks.map Task.name)
        ∧ topoFrom Task.name Task.depends [] g = true)
  ∧ (∃ g evs, Runner.run (fun _ _ => envAllOk) (fun _ _ => 0) (fun _ => 0) runnerAB
          = (.ok (), { jobs := g }, evs)
        ∧ List.Perm (g.map Job.name) (runnerAB.jobs.map Job.name)
        ∧ topoFrom Job.name Job.depends [] g = true) :=
  ⟨run_acyclic_success_topological.1 (fun _ => envAllOk) (fun _ => 0) jobAB
      (fun n => if n == "b" then 1 else 0) (by decide) (by decide) (by decide),
   run_acyclic_success_topological.2 (fun _ _ => envAllOk) (fun _ _ => 0) (fun _ => 0) runnerAB
      (fun n => if n == "B" then 1 else 0) (by decide) (by decide) (by decide)⟩

/-- The error-form contract exercised at the failing run of `jobAB`:
the propagated error is the raw exit-status error and wraps no node. -/
theorem run_propagates_unit_error_unwrapped_witness :
    ((∃ nm, Error.exit 1 = Error.missingDependency nm)
        ∨ Error.exit 1 = Error.circularDependency ∨ Error.exit 1 = Error.join
        ∨ Error.exit 1 = Error.ioError ∨ ∃ c, c ≠ 0 ∧ Error.exit 1 = Error.exit c)
      ∧ (∀ t, Error.exit 1 ≠ Error.taskFailed t)
      ∧ ∀ jb, Error.exit 1 ≠ Error.jobFailed jb :=
  run_propagates_unit_error_unwrapped.2.1 envFailA (fun _ => 0) jobAB (Error.exit 1) (by rfl)

/-- The circular-dependency contract on a concrete two-task cycle:
`jobCyc` fails with the dedicated error and neither cycle task is ever
marked Running. -/
theorem run_circular_dependency_detected_witness :
    ∃ evs, Job.run (fun _ => envAllOk) (fun _ => 0) jobCyc
        = (.error .circularDependency, jobCyc, evs)
      ∧ ∀ cn ∈ ["a", "b"], Event.setTask "c" cn .running ∉ evs :=
  run_circular_dependency_detected.2.1 (fun _ => envAllOk) (fun _ => 0) jobCyc ["a", "b"]
    (by decide) (by decide) (by decide) (by decide) (by decide)

/-- The missing-dependency contract on concrete inputs: `jobMissing`
yields the qualified reference `m/ghost` with no tracker operation,
`runnerMissing` the bare `ghost` with only mirror insertions. -/
theorem run_missing_dependency_fail_fast_witness :
    (∃ d, (∃ t ∈ jobMissing.tasks, d ∈ t.depends) ∧ (∀ t' ∈ jobMissing.tasks, t'.name ≠ d)
      ∧ Job.run (fun _ => envAllOk) (fun _ => 0) jobMissing
          = (.error (.missingDependency (jobMissing.name ++ "/" ++ d)), jobMissing, []))
  ∧ ∃ d evs, (∃ jb ∈ runnerMissing.jobs, d ∈ jb.depends)
      ∧ (∀ j' ∈ runnerMissing.jobs, j'.name ≠ d)
      ∧ Runner.run (fun _ _ => envAllOk) (fun _ _ => 0) (fun _ => 0) runnerMissing
          = (.error (.missingDependency d), runnerMissing, evs)
      ∧ ∀ ev ∈ evs, ∃ js, ev = Event.insertJob js :=
  ⟨run_missing_dependency_fail_fast.1 (fun _ => envAllOk) (fun _ => 0) jobMissing (by decide),
   run_missing_dependency_fail_fast.2 (fun _ _ => envAllOk) (fun _ _ => 0) (fun _ => 0)
     runnerMissing (by decide)⟩

/-- The error-path frame on concrete erroring inputs: after the failed
runs of `jobMissing` and `runnerMissing` the collections are unchanged. -/
theorem run_error_leaves_collection_unchanged_witness :
    ((Job.run (fun _ => envAllOk) (fun _ => 0) jobMissing).1
        = .error (.missingDependency "m/ghost")
      ∧ (Job.run (fun _ => envAllOk) (fun _ => 0) jobMissing).2.1 = jobMissing)
  ∧ ((Runner.run (fun _ _ => envAllOk) (fun _ _ => 0) (fun _ => 0) runnerMissing).1
        = .error (.missingDependency "ghost")
      ∧ (Runner.run (fun _ _ => envAllOk) (fun _ _ => 0) (fun _ => 0) runnerMissing).2.1
        = runnerMissing) :=
  ⟨⟨by decide,
    run_error_leaves_collection_unchanged.1 (fun _ => envAllOk) (fun _ => 0) jobMissing
      (.missingDependency "m/ghost") (by decide)⟩,
   ⟨by decide,
    run_error_leaves_collection_unchanged.2 (fun _ _ => envAllOk) (fun _ _ => 0) (fun _ => 0)
      runnerMissing (.missingDependency "ghost") (by decide)⟩⟩

end Bed
